import Mathlib

set_option maxHeartbeats 1000000

/-!
Verification of the olric repository's specification against a shallow
embedding of its code.

The repository ships three kinds of artifacts relevant to the claims:

* the storage-engine test-suite (`storage` package tests);
* the pub/sub wire-command parsing functions (`protocol` package);
* the TCP client configuration (`config` package, `client.go`).

The storage engine itself (types `Storage`, `Table`, `VData` and the
operations `New`, `Put`, `Get`, `Delete`, `Check`, `Len`, `Range`,
`CompactTables`, `Export`, `Import`) is exercised by the tests but its
implementation file is not part of the sources; those definitions are
therefore modelled from the specification (spec.md §3, §4, §6), as marked
in their doc comments.  Bytes are modelled as `Nat` (values `< 256` where
produced by the codec), machine integers as `Nat`/`Int`, Go slices as
`List`, Go maps as association lists, and Go errors as `Except`/`Option`.
-/

/-! ## Record codec (spec §4.1) -/

/-- Modelled from the spec: big-endian encoding of a natural number into a
fixed number of bytes (spec §4.1, "Integer endianness is fixed
(big-endian)"). -/
def natToBytesBE : Nat → Nat → List Nat
  | 0, _ => []
  | w + 1, n => natToBytesBE w (n / 256) ++ [n % 256]

/-- Modelled from the spec: big-endian decoding of a byte list into a
natural number. -/
def bytesToNatBE (bs : List Nat) : Nat :=
  bs.foldl (fun acc b => acc * 256 + b) 0

/-- Modelled from the spec: the record (`VData`) of §3 — logical key bytes,
signed 64-bit ttl, value bytes. -/
structure VData where
  key : List Nat
  ttl : Int
  value : List Nat
deriving DecidableEq, Repr

/-- Validity bounds of a record: key at most 255 bytes, value shorter than
2^32 bytes, ttl a signed 64-bit integer (spec §4.1, §6). -/
abbrev VData.valid (v : VData) : Prop :=
  v.key.length ≤ 255 ∧ v.value.length < 4294967296 ∧
    -9223372036854775808 ≤ v.ttl ∧ v.ttl < 9223372036854775808

/-- Modelled from the spec: two's-complement big-endian encoding of a
signed 64-bit integer (spec §4.1, `ttl:i64 BE`). -/
def int64ToBytesBE (t : Int) : List Nat :=
  natToBytesBE 8 (t % 18446744073709551616).toNat

/-- Modelled from the spec: decode a natural number below 2^64 as a signed
64-bit integer. -/
def decodeInt64 (n : Nat) : Int :=
  if n < 9223372036854775808 then (n : Int) else (n : Int) - 18446744073709551616

/-- Modelled from the spec: the on-arena layout of one record (spec §4.1):
`[klen:u8][key][ttl:i64 BE][vlen:u32 BE][value][timestamp:i64 BE]`.  The
optional timestamp field is stored as zero (spec §3: "implementer's
choice", not required by the contract). -/
def encodeRecord (v : VData) : List Nat :=
  [v.key.length] ++ v.key ++ int64ToBytesBE v.ttl ++
    natToBytesBE 4 v.value.length ++ v.value ++ natToBytesBE 8 0

/-- Encoded size of a record: `1 + klen + 8 + 4 + vlen + 8` (spec §4.1). -/
def encodedSize (v : VData) : Nat :=
  21 + v.key.length + v.value.length

/-- Split the first `n` bytes off a byte list, failing if it is too
short. -/
def takeN (bs : List Nat) (n : Nat) : Option (List Nat × List Nat) :=
  if n ≤ bs.length then some (bs.take n, bs.drop n) else none

/-- Modelled from the spec: the pure record decoder (spec §4.1: "given a
byte slice and a starting offset it produces the record and the number of
bytes consumed, or an error if the slice is too short"). -/
def decodeRecord (arena : List Nat) (off : Nat) : Option (VData × Nat) :=
  match takeN (arena.drop off) 1 with
  | none => none
  | some (klenB, r1) =>
    let klen := bytesToNatBE klenB
    match takeN r1 klen with
    | none => none
    | some (key, r2) =>
      match takeN r2 8 with
      | none => none
      | some (ttlB, r3) =>
        match takeN r3 4 with
        | none => none
        | some (vlenB, r4) =>
          let vlen := bytesToNatBE vlenB
          match takeN r4 vlen with
          | none => none
          | some (value, r5) =>
            match takeN r5 8 with
            | none => none
            | some (_, _) =>
              some (⟨key, decodeInt64 (bytesToNatBE ttlB), value⟩, 21 + klen + vlen)

theorem natToBytesBE_length (w n : Nat) : (natToBytesBE w n).length = w := by
  induction w generalizing n with
  | zero => rfl
  | succ w ih => simp [natToBytesBE, ih]

theorem bytesToNatBE_append_singleton (bs : List Nat) (b : Nat) :
    bytesToNatBE (bs ++ [b]) = bytesToNatBE bs * 256 + b := by
  simp [bytesToNatBE, List.foldl_append]

theorem bytesToNatBE_natToBytesBE (w n : Nat) (h : n < 256 ^ w) :
    bytesToNatBE (natToBytesBE w n) = n := by
  induction w generalizing n with
  | zero =>
    have hn : n = 0 := by simpa [Nat.pow_zero, Nat.lt_one_iff] using h
    subst hn
    rfl
  | succ w ih =>
    have hdiv : n / 256 < 256 ^ w := by
      rw [Nat.div_lt_iff_lt_mul (by norm_num)]
      calc n < 256 ^ (w + 1) := h
        _ = 256 ^ w * 256 := by ring
    rw [natToBytesBE, bytesToNatBE_append_singleton, ih _ hdiv]
    omega

theorem decodeInt64_int64Bytes (t : Int)
    (h1 : -9223372036854775808 ≤ t) (h2 : t < 9223372036854775808) :
    decodeInt64 (t % 18446744073709551616).toNat = t := by
  have hnn : (0 : Int) ≤ t % 18446744073709551616 :=
    Int.emod_nonneg t (by norm_num)
  have hcast : ((t % 18446744073709551616).toNat : Int) = t % 18446744073709551616 :=
    Int.toNat_of_nonneg hnn
  unfold decodeInt64
  split
  · next hlt =>
    have : ((t % 18446744073709551616).toNat : Int) < 9223372036854775808 := by
      exact_mod_cast Nat.cast_lt.mpr hlt
    rw [hcast] at this ⊢
    omega
  · next hge =>
    have : ¬ (((t % 18446744073709551616).toNat : Int) < 9223372036854775808) := by
      intro hc
      exact hge (by exact_mod_cast hc)
    rw [hcast] at this ⊢
    omega

/-! ## Codec round-trip lemmas -/

theorem takeN_append (a b : List Nat) : takeN (a ++ b) a.length = some (a, b) := by
  simp [takeN, List.take_left, List.drop_left]

theorem takeN_cons (x : Nat) (rest : List Nat) : takeN (x :: rest) 1 = some ([x], rest) := by
  simp [takeN]

theorem bytesToNatBE_singleton (b : Nat) : bytesToNatBE [b] = b := by
  simp [bytesToNatBE]

theorem takeN_mono {bs e a b : List Nat} {n : Nat} (h : takeN bs n = some (a, b)) :
    takeN (bs ++ e) n = some (a, b ++ e) := by
  unfold takeN at h ⊢
  split at h
  · next hle =>
    rw [if_pos (by simp; omega)]
    obtain ⟨h1, h2⟩ := Prod.mk.injEq .. ▸ Option.some.injEq .. ▸ h
    rw [List.take_append_of_le_length hle, List.drop_append_of_le_length hle]
    simp_all
  · exact absurd h (by simp)

theorem int64ToBytesBE_length (t : Int) : (int64ToBytesBE t).length = 8 :=
  natToBytesBE_length 8 _

theorem bytesToNatBE_int64 (t : Int)
    (h1 : -9223372036854775808 ≤ t) (h2 : t < 9223372036854775808) :
    decodeInt64 (bytesToNatBE (int64ToBytesBE t)) = t := by
  unfold int64ToBytesBE
  rw [bytesToNatBE_natToBytesBE]
  · exact decodeInt64_int64Bytes t h1 h2
  · have hnn : (0 : Int) ≤ t % 18446744073709551616 :=
      Int.emod_nonneg t (by norm_num)
    have hlt : t % 18446744073709551616 < 18446744073709551616 :=
      Int.emod_lt_of_pos t (by norm_num)
    have : ((t % 18446744073709551616).toNat : Int) < 18446744073709551616 := by
      rw [Int.toNat_of_nonneg hnn]; exact hlt
    show (t % 18446744073709551616).toNat < 256 ^ 8
    norm_num
    exact_mod_cast this

theorem takeN_int64 (t : Int) (b : List Nat) :
    takeN (int64ToBytesBE t ++ b) 8 = some (int64ToBytesBE t, b) := by
  have := takeN_append (int64ToBytesBE t) b
  rwa [int64ToBytesBE_length] at this

theorem takeN_natToBytesBE (w n : Nat) (b : List Nat) :
    takeN (natToBytesBE w n ++ b) w = some (natToBytesBE w n, b) := by
  have := takeN_append (natToBytesBE w n) b
  rwa [natToBytesBE_length] at this

/-- Decoding right after the write cursor returns exactly the record that
was encoded there, together with its encoded size. -/
theorem decode_encode (pre suf : List Nat) (v : VData) (hv : v.valid) :
    decodeRecord (pre ++ (encodeRecord v ++ suf)) pre.length = some (v, encodedSize v) := by
  obtain ⟨hk, hval, httl1, httl2⟩ := hv
  have hv4 : bytesToNatBE (natToBytesBE 4 v.value.length) = v.value.length :=
    bytesToNatBE_natToBytesBE 4 _ (by norm_num; omega)
  have hint : decodeInt64 (bytesToNatBE (int64ToBytesBE v.ttl)) = v.ttl :=
    bytesToNatBE_int64 v.ttl httl1 httl2
  have henc : encodeRecord v ++ suf =
      v.key.length :: (v.key ++ (int64ToBytesBE v.ttl ++ (natToBytesBE 4 v.value.length ++
        (v.value ++ (natToBytesBE 8 0 ++ suf))))) := by
    simp [encodeRecord]
  unfold decodeRecord
  rw [List.drop_left, henc]
  simp only [takeN_cons, bytesToNatBE_singleton, takeN_append, takeN_int64,
    takeN_natToBytesBE, hv4, hint]
  rfl

/-- Decoding is stable under extending the arena on the right: a record
already present keeps decoding to the same result. -/
theorem decode_extend {arena : List Nat} {off : Nat} {r : VData × Nat} (e : List Nat)
    (h : decodeRecord arena off = some r) :
    decodeRecord (arena ++ e) off = some r := by
  unfold decodeRecord at h ⊢
  have hoff : off ≤ arena.length := by
    by_contra hc
    have : arena.drop off = [] := List.drop_eq_nil_of_le (by omega)
    rw [this] at h
    simp [takeN] at h
  rw [List.drop_append_of_le_length hoff]
  cases h1 : takeN (arena.drop off) 1 with
  | none => rw [h1] at h; exact absurd h (by simp)
  | some p1 =>
    obtain ⟨klenB, r1⟩ := p1
    rw [h1] at h
    rw [takeN_mono h1]
    simp only at h ⊢
    cases h2 : takeN r1 (bytesToNatBE klenB) with
    | none => rw [h2] at h; exact absurd h (by simp)
    | some p2 =>
      obtain ⟨key, r2⟩ := p2
      rw [h2] at h
      rw [takeN_mono h2]
      simp only at h ⊢
      cases h3 : takeN r2 8 with
      | none => rw [h3] at h; exact absurd h (by simp)
      | some p3 =>
        obtain ⟨ttlB, r3⟩ := p3
        rw [h3] at h
        rw [takeN_mono h3]
        simp only at h ⊢
        cases h4 : takeN r3 4 with
        | none => rw [h4] at h; exact absurd h (by simp)
        | some p4 =>
          obtain ⟨vlenB, r4⟩ := p4
          rw [h4] at h
          rw [takeN_mono h4]
          simp only at h ⊢
          cases h5 : takeN r4 (bytesToNatBE vlenB) with
          | none => rw [h5] at h; exact absurd h (by simp)
          | some p5 =>
            obtain ⟨value, r5⟩ := p5
            rw [h5] at h
            rw [takeN_mono h5]
            simp only at h ⊢
            cases h6 : takeN r5 8 with
            | none => rw [h6] at h; exact absurd h (by simp)
            | some p6 =>
              obtain ⟨tsB, r6⟩ := p6
              rw [h6] at h
              rw [takeN_mono h6]
              simpa using h

/-! ## Table and Storage data model (spec §3, §4.2, §4.3)

Modelled from the spec: the storage engine implementation is not among the
sources (only its test-suite is); the definitions below follow spec.md.
Ambiguities the spec leaves open are resolved as documented:

* `Put` surfaces the *fragmented* signal whenever it has to allocate a new
  Table (spec §2 control flow: "Storage allocates a larger Table and
  retries there while returning a *fragmented* signal to the caller";
  §9 flags the garbage-based refinement of §4.3 as implementation-defined
  and notes any choice driving compaction on the signal is acceptable).
* `Delete` surfaces *fragmented* "when the garbage ratio across Tables
  crosses a threshold" (spec §4.3); the threshold is unspecified, and we
  model the conservative choice of signalling whenever aggregate garbage
  is positive.
* Overwriting an hkey is realised as delete-then-append (spec §3: records
  are "mutated only by in-place replacement (delete-then-append in the
  newest Table)").
-/

/-- Modelled from the spec: a Table (spec §3) — fixed capacity, byte
arena (its length is the write cursor `offset`), live-byte and garbage
counters, and the hkey → offset index. -/
structure Table where
  allocated : Nat
  arena : List Nat
  inuse : Nat
  garbage : Nat
  index : List (Nat × Nat)
deriving DecidableEq, Repr

/-- The write cursor: the next write begins at the end of the arena. -/
def Table.offset (t : Table) : Nat := t.arena.length

/-- Normative minimum Table size: 1 MiB (spec §6). -/
def minimumSize : Nat := 1048576

/-- Modelled from the spec: `NewTable(size)` — a fresh Table whose size is
clamped to at least `minimumSize` (spec §4.2). -/
def newTable (size : Nat) : Table :=
  { allocated := max size minimumSize, arena := [], inuse := 0, garbage := 0, index := [] }

/-- Modelled from the spec: a Storage is an ordered sequence of Tables,
oldest first; writes target the last (newest) one (spec §3). -/
structure Storage where
  tables : List Table
deriving DecidableEq, Repr

/-- Modelled from the spec: `New(size)` creates a Storage with a single
Table of size `max(size, minimumSize)` (spec §4.3). -/
def Storage.new (size : Nat) : Storage := ⟨[newTable size]⟩

/-- Error kinds of the engine (spec §7): key-not-found and
invalid-record.  The *fragmented* signal is not a failure (spec §7) and is
modelled as a Boolean alongside successful results. -/
inductive StorageErr where
  | keyNotFound
  | invalidRecord
deriving DecidableEq, Repr

/-- Offset of the record owned by `hkey` in an index. -/
def lookupOff (index : List (Nat × Nat)) (hkey : Nat) : Option Nat :=
  (index.find? (fun p => p.1 == hkey)).map Prod.snd

/-- On-arena size of the record starting at `off` (0 when undecodable). -/
def sizeAt (arena : List Nat) (off : Nat) : Nat :=
  match decodeRecord arena off with
  | some (_, n) => n
  | none => 0

/-- Modelled from the spec: remove an hkey from a Table (spec §4.2
Delete): drop the index entry, count its bytes as garbage, subtract them
from `inuse`.  The arena bytes are left in place. -/
def Table.deleteKey (t : Table) (hkey : Nat) : Table :=
  match lookupOff t.index hkey with
  | none => t
  | some off =>
    { t with index := t.index.filter (fun p => !(p.1 == hkey)),
             garbage := t.garbage + sizeAt t.arena off,
             inuse := t.inuse - sizeAt t.arena off }

/-- Modelled from the spec: append a record into a Table (spec §4.2 Put),
assuming the hkey is not present (the Storage-level Put removes it first).
Returns `none` when the record does not fit (*table-full*). -/
def Table.putRaw (t : Table) (hkey : Nat) (v : VData) : Option Table :=
  if t.allocated < t.offset + encodedSize v then none
  else some { t with arena := t.arena ++ encodeRecord v,
                     index := t.index ++ [(hkey, t.offset)],
                     inuse := t.inuse + encodedSize v }

/-- Modelled from the spec: per-Table lookup (spec §4.2 Get). -/
def Table.get (t : Table) (hkey : Nat) : Option VData :=
  match lookupOff t.index hkey with
  | none => none
  | some off => (decodeRecord t.arena off).map Prod.fst

/-- Split a list into its initial part and last element. -/
def splitLast : List α → Option (List α × α)
  | [] => none
  | [a] => some ([], a)
  | a :: b :: rest =>
    match splitLast (b :: rest) with
    | none => none
    | some (init, last) => some (a :: init, last)

/-- Modelled from the spec: `Put(hkey, record)` (spec §4.3).  The hkey is
first removed from every Table (spec §4.3 step 3 and §3's
delete-then-append replacement), then the record is appended to the newest
Table; if it does not fit, a Table of capacity
`max(minimumSize, 2 × newest capacity, need)` is allocated and the record
is placed there, surfacing the *fragmented* signal (`true` in the returned
pair). -/
def Storage.put (s : Storage) (hkey : Nat) (v : VData) : Except StorageErr (Storage × Bool) :=
  if 255 < v.key.length then .error .invalidRecord
  else if 4294967296 ≤ v.value.length then .error .invalidRecord
  else
    match splitLast (s.tables.map (fun t => t.deleteKey hkey)) with
    | none => .error .invalidRecord
    | some (older, newest) =>
      match newest.putRaw hkey v with
      | some nt => .ok (⟨older ++ [nt]⟩, false)
      | none =>
        let cap := max (max minimumSize (2 * newest.allocated)) (encodedSize v)
        match (newTable cap).putRaw hkey v with
        | some nt => .ok (⟨older ++ [newest, nt]⟩, true)
        | none => .error .invalidRecord

/-- Modelled from the spec: `Get(hkey)` scans the Tables for an index hit
(spec §4.3). -/
def Storage.get (s : Storage) (hkey : Nat) : Option VData :=
  s.tables.findSome? (fun t => t.get hkey)

/-- Modelled from the spec: `Check(hkey)` — membership without decoding
(spec §4.2). -/
def Storage.check (s : Storage) (hkey : Nat) : Bool :=
  s.tables.any (fun t => (lookupOff t.index hkey).isSome)

/-- Modelled from the spec: `Len()` — the sum of index sizes (spec §4.3). -/
def Storage.len (s : Storage) : Nat :=
  (s.tables.map (fun t => t.index.length)).sum

/-- Aggregate garbage across Tables. -/
def totalGarbage (s : Storage) : Nat :=
  (s.tables.map Table.garbage).sum

/-- Total bytes written across Tables (sum of write cursors). -/
def totalOffset (s : Storage) : Nat :=
  (s.tables.map Table.offset).sum

/-- Modelled from the spec: `Delete(hkey)` (spec §4.3) — delete from the
owning Table, *key-not-found* when absent; the Boolean is the *fragmented*
hint, surfaced when aggregate garbage is positive (see the modelling notes
above). -/
def Storage.delete (s : Storage) (hkey : Nat) : Except StorageErr (Storage × Bool) :=
  if s.check hkey then
    let s' : Storage := ⟨s.tables.map (fun t => t.deleteKey hkey)⟩
    .ok (s', decide (0 < totalGarbage s'))
  else .error .keyNotFound

/-- The live records of a Table, in index order. -/
def Table.records (t : Table) : List (Nat × VData) :=
  t.index.filterMap (fun p => (decodeRecord t.arena p.2).map (fun r => (p.1, r.1)))

/-- All live hkeys of a Storage, oldest Table first. -/
def liveKeys (s : Storage) : List Nat :=
  s.tables.flatMap (fun t => t.index.map Prod.fst)

/-- Re-insert a list of records through the normal Put path, keeping the
state unchanged on a Put error (unreachable on well-formed inputs). -/
def putsFold (rs : List (Nat × VData)) (dst : Storage) : Storage :=
  rs.foldl (fun acc p =>
    match acc.put p.1 p.2 with
    | .ok (s', _) => s'
    | .error _ => acc) dst

/-- Move every live record of `src` into `dst` through the normal Put path
(spec §4.3 CompactTables). -/
def moveAll (src : Table) (dst : Storage) : Storage :=
  putsFold src.records dst

/-- Finish one compaction pass (spec §4.3): if exactly one Table remains
and it holds no records, replace it by a fresh minimum-sized Table
(purge); report `done = true` exactly when a single Table remains. -/
def finishPass (s : Storage) : Storage × Bool :=
  match s.tables with
  | [t] => if t.index.isEmpty then (⟨[newTable minimumSize]⟩, true) else (s, true)
  | _ => (s, false)

/-- Modelled from the spec: `CompactTables()` (spec §4.3) — one slice of
compaction work: drain the oldest non-newest Table by re-inserting its
live records through the Put path (dropping the drained Table), then purge
when the Storage has collapsed to a single empty Table; returns whether
the engine is in a compacted steady state (exactly one Table). -/
def Storage.compactTables (s : Storage) : Storage × Bool :=
  match s.tables with
  | [] => (Storage.new 0, true)
  | [t] => finishPass ⟨[t]⟩
  | oldest :: rest => finishPass (moveAll oldest ⟨rest⟩)

/-- The caller's compaction loop: call `CompactTables` until it reports
`true` (spec §4.3), bounded by fuel; the Boolean reports whether the loop
reached the steady state within the fuel. -/
def driveCompaction : Nat → Storage → Storage × Bool
  | 0, s => (s, false)
  | fuel + 1, s =>
    match s.compactTables with
    | (s', true) => (s', true)
    | (s', false) => driveCompaction fuel s'

/-- A full Range pass: the `(hkey, record)` pairs of all Tables in order
(spec §4.3 Range). -/
def rangePairs (s : Storage) : List (Nat × VData) :=
  s.tables.flatMap Table.records

/-- Visit records until the callback returns `false` (spec §4.2 Range:
"If `fn` returns false, iteration stops"); returns the visited pairs. -/
def visitWhile (fn : Nat → VData → Bool) : List (Nat × VData) → List (Nat × VData)
  | [] => []
  | p :: rest => if fn p.1 p.2 then p :: visitWhile fn rest else [p]

/-- Modelled from the spec: `Range(fn)` with early exit; the result is the
list of pairs passed to `fn`. -/
def Storage.range (s : Storage) (fn : Nat → VData → Bool) : List (Nat × VData) :=
  visitWhile fn (rangePairs s)

/-! ## Well-formedness invariant (spec §3 Table/Storage invariants, §8) -/

/-- An index entry is backed by a valid, decodable record at its offset. -/
def entryOk (arena : List Nat) (p : Nat × Nat) : Prop :=
  ∃ v : VData, v.valid ∧ decodeRecord arena p.2 = some (v, encodedSize v)

/-- Table invariant: every index entry decodes to a valid record, `inuse`
is the number of live bytes, and the write cursor stays within the
capacity (spec §3, §4.2). -/
def Table.wfT (t : Table) : Prop :=
  (t.index.map Prod.fst).Nodup ∧
    (∀ p ∈ t.index, entryOk t.arena p) ∧
    t.inuse = (t.index.map (fun p => sizeAt t.arena p.2)).sum ∧
    t.arena.length ≤ t.allocated

/-- Storage invariant: at least one Table, every live hkey lives in
exactly one Table (spec §3), and every Table is well-formed. -/
def Storage.wf (s : Storage) : Prop :=
  s.tables ≠ [] ∧ (liveKeys s).Nodup ∧ ∀ t ∈ s.tables, t.wfT

theorem wfT_newTable (size : Nat) : (newTable size).wfT := by
  refine ⟨?_, ?_, rfl, ?_⟩ <;> simp [newTable]

theorem wf_new (size : Nat) : (Storage.new size).wf := by
  refine ⟨by simp [Storage.new], ?_, ?_⟩
  · simp [liveKeys, Storage.new, newTable]
  · intro t ht
    simp [Storage.new] at ht
    subst ht
    exact wfT_newTable size

/-! ## Association-list lemmas for the index -/

theorem lookupOff_nil (h : Nat) : lookupOff [] h = none := rfl

theorem lookupOff_cons (p : Nat × Nat) (l : List (Nat × Nat)) (h : Nat) :
    lookupOff (p :: l) h = if p.1 = h then some p.2 else lookupOff l h := by
  by_cases hp : p.1 = h <;> simp [lookupOff, List.find?_cons, hp]

theorem lookupOff_eq_none_iff (l : List (Nat × Nat)) (h : Nat) :
    lookupOff l h = none ↔ h ∉ l.map Prod.fst := by
  unfold lookupOff
  rw [Option.map_eq_none', List.find?_eq_none]
  constructor
  · intro hf hmem
    obtain ⟨p, hp, hfst⟩ := List.mem_map.mp hmem
    have := hf p hp
    simp [hfst] at this
  · intro hnm p hp
    simp only [beq_iff_eq]
    intro hc
    exact hnm (List.mem_map.mpr ⟨p, hp, hc⟩)

theorem lookupOff_mem (l : List (Nat × Nat)) (h o : Nat)
    (hl : lookupOff l h = some o) : (h, o) ∈ l := by
  induction l with
  | nil => simp [lookupOff_nil] at hl
  | cons p l ih =>
    rw [lookupOff_cons] at hl
    split at hl
    · next hp =>
      have ho : o = p.2 := by
        have := Option.some.inj hl
        omega
      exact List.mem_cons.mpr (Or.inl (by rw [ho, ← hp]))
    · exact List.mem_cons_of_mem _ (ih hl)

theorem lookupOff_isSome_iff (l : List (Nat × Nat)) (h : Nat) :
    (lookupOff l h).isSome ↔ h ∈ l.map Prod.fst := by
  cases hl : lookupOff l h with
  | none =>
    simp only [Option.isSome_none, Bool.false_eq_true, false_iff]
    exact (lookupOff_eq_none_iff l h).mp hl
  | some o =>
    simp only [Option.isSome_some, true_iff]
    exact List.mem_map_of_mem Prod.fst (lookupOff_mem l h o hl)

theorem lookupOff_append (l₁ l₂ : List (Nat × Nat)) (h : Nat) :
    lookupOff (l₁ ++ l₂) h =
      match lookupOff l₁ h with
      | some o => some o
      | none => lookupOff l₂ h := by
  induction l₁ with
  | nil => simp [lookupOff_nil]
  | cons p l ih =>
    rw [List.cons_append, lookupOff_cons, lookupOff_cons]
    by_cases hp : p.1 = h <;> simp [hp, ih]

theorem lookupOff_append_self (l : List (Nat × Nat)) (h o : Nat)
    (hh : h ∉ l.map Prod.fst) : lookupOff (l ++ [(h, o)]) h = some o := by
  rw [lookupOff_append, (lookupOff_eq_none_iff l h).mpr hh]
  simp [lookupOff_cons]

theorem lookupOff_append_ne (l : List (Nat × Nat)) (h h' o : Nat) (hne : h' ≠ h) :
    lookupOff (l ++ [(h, o)]) h' = lookupOff l h' := by
  rw [lookupOff_append]
  cases hl : lookupOff l h' with
  | some x => rfl
  | none =>
    show lookupOff [(h, o)] h' = none
    rw [lookupOff_cons, if_neg (fun hc => hne hc.symm)]
    rfl

theorem lookupOff_filter_ne (l : List (Nat × Nat)) (h h' : Nat) (hne : h' ≠ h) :
    lookupOff (l.filter (fun p => !(p.1 == h))) h' = lookupOff l h' := by
  induction l with
  | nil => simp [lookupOff_nil]
  | cons p l ih =>
    by_cases hp : p.1 = h
    · rw [List.filter_cons_of_neg (by simp [hp]), lookupOff_cons, if_neg (by omega), ih]
    · rw [List.filter_cons_of_pos (by simp [hp]), lookupOff_cons, lookupOff_cons, ih]

theorem lookupOff_filter_self (l : List (Nat × Nat)) (h : Nat) :
    lookupOff (l.filter (fun p => !(p.1 == h))) h = none := by
  rw [lookupOff_eq_none_iff]
  intro hc
  simp only [List.mem_map] at hc
  obtain ⟨p, hp, hfst⟩ := hc
  rw [List.mem_filter] at hp
  simp [hfst] at hp

theorem keys_filter_ne (l : List (Nat × Nat)) (h : Nat) :
    (l.filter (fun p => !(p.1 == h))).map Prod.fst =
      (l.map Prod.fst).filter (fun k => !(k == h)) := by
  induction l with
  | nil => rfl
  | cons p l ih =>
    by_cases hp : p.1 = h
    · rw [List.filter_cons_of_neg (by simp [hp]), List.map_cons,
        List.filter_cons_of_neg (by simp [hp]), ih]
    · rw [List.filter_cons_of_pos (by simp [hp]), List.map_cons, List.map_cons,
        List.filter_cons_of_pos (by simp [hp]), ih]

theorem sum_filter_of_lookup (l : List (Nat × Nat)) (f : Nat × Nat → Nat) (h o : Nat)
    (hnd : (l.map Prod.fst).Nodup) (hl : lookupOff l h = some o) :
    (l.map f).sum = ((l.filter (fun p => !(p.1 == h))).map f).sum + f (h, o) := by
  induction l with
  | nil => simp [lookupOff_nil] at hl
  | cons p l ih =>
    rw [List.map_cons, List.nodup_cons] at hnd
    rw [lookupOff_cons] at hl
    split at hl
    · next hp =>
      have ho : o = p.2 := by
        have := Option.some.inj hl
        omega
      have hpho : (h, o) = p := by rw [ho, ← hp]
      have hnotin : h ∉ l.map Prod.fst := hp ▸ hnd.1
      have hfilter : l.filter (fun p => !(p.1 == h)) = l := by
        apply List.filter_eq_self.mpr
        intro q hq
        simp only [Bool.not_eq_eq_eq_not, Bool.not_true, beq_eq_false_iff_ne, ne_eq]
        intro hc
        exact hnotin (hc ▸ List.mem_map_of_mem Prod.fst hq)
      rw [List.filter_cons_of_neg (by simp [hp]), hfilter, List.map_cons, List.sum_cons, hpho]
      omega
    · next hp =>
      rw [List.filter_cons_of_pos (by simp [hp]), List.map_cons, List.map_cons,
        List.sum_cons, List.sum_cons, ih hnd.2 hl]
      omega

/-! ## Table-level lemmas -/

theorem encodeRecord_length (v : VData) : (encodeRecord v).length = encodedSize v := by
  simp [encodeRecord, encodedSize, natToBytesBE_length, int64ToBytesBE_length]
  omega

theorem deleteKey_arena (t : Table) (h : Nat) : (t.deleteKey h).arena = t.arena := by
  unfold Table.deleteKey
  split <;> rfl

theorem deleteKey_allocated (t : Table) (h : Nat) :
    (t.deleteKey h).allocated = t.allocated := by
  unfold Table.deleteKey
  split <;> rfl

theorem deleteKey_index (t : Table) (h : Nat) :
    (t.deleteKey h).index = t.index.filter (fun p => !(p.1 == h)) := by
  unfold Table.deleteKey
  cases hl : lookupOff t.index h with
  | none =>
    have hnot : h ∉ t.index.map Prod.fst := (lookupOff_eq_none_iff _ _).mp hl
    show t.index = _
    symm
    apply List.filter_eq_self.mpr
    intro q hq
    simp only [Bool.not_eq_eq_eq_not, Bool.not_true, beq_eq_false_iff_ne, ne_eq]
    intro hc
    exact hnot (hc ▸ List.mem_map_of_mem Prod.fst hq)
  | some off => rfl

theorem deleteKey_get_self (t : Table) (h : Nat) : (t.deleteKey h).get h = none := by
  unfold Table.get
  rw [deleteKey_index, lookupOff_filter_self]

theorem deleteKey_get_ne (t : Table) (h h' : Nat) (hne : h' ≠ h) :
    (t.deleteKey h).get h' = t.get h' := by
  unfold Table.get
  rw [deleteKey_index, deleteKey_arena, lookupOff_filter_ne _ _ _ hne]

theorem wfT_deleteKey (t : Table) (h : Nat) (hw : t.wfT) : (t.deleteKey h).wfT := by
  obtain ⟨hnd, hent, hin, harena⟩ := hw
  refine ⟨?_, ?_, ?_, ?_⟩
  · rw [deleteKey_index, keys_filter_ne]
    exact hnd.filter _
  · intro p hp
    rw [deleteKey_index, List.mem_filter] at hp
    rw [deleteKey_arena]
    exact hent p hp.1
  · cases hl : lookupOff t.index h with
    | none =>
      have heq : t.deleteKey h = t := by
        unfold Table.deleteKey
        rw [hl]
      rw [heq]
      exact hin
    | some off =>
      have heq : t.deleteKey h =
          { t with index := t.index.filter (fun p => !(p.1 == h)),
                   garbage := t.garbage + sizeAt t.arena off,
                   inuse := t.inuse - sizeAt t.arena off } := by
        unfold Table.deleteKey
        rw [hl]
      rw [heq]
      simp only
      rw [hin, sum_filter_of_lookup t.index (fun p => sizeAt t.arena p.2) h off hnd hl]
      simp
  · rw [deleteKey_arena, deleteKey_allocated]
    exact harena

theorem putRaw_fields {t t' : Table} {h : Nat} {v : VData}
    (hput : t.putRaw h v = some t') :
    t'.arena = t.arena ++ encodeRecord v ∧
      t'.index = t.index ++ [(h, t.arena.length)] ∧
      t'.allocated = t.allocated ∧
      t'.inuse = t.inuse + encodedSize v ∧
      t.arena.length + encodedSize v ≤ t.allocated := by
  unfold Table.putRaw at hput
  split at hput
  · exact absurd hput (by simp)
  · next hfit =>
    obtain rfl := Option.some.inj hput
    refine ⟨rfl, rfl, rfl, rfl, ?_⟩
    unfold Table.offset at hfit
    omega

theorem putRaw_get_self {t t' : Table} {h : Nat} {v : VData}
    (hput : t.putRaw h v = some t') (hnotin : h ∉ t.index.map Prod.fst)
    (hv : v.valid) : t'.get h = some v := by
  obtain ⟨ha, hi, -, -, -⟩ := putRaw_fields hput
  unfold Table.get
  rw [hi, lookupOff_append_self _ _ _ hnotin, ha]
  have := decode_encode t.arena [] v hv
  rw [List.append_nil] at this
  simp [this]

theorem putRaw_get_ne {t t' : Table} {h h' : Nat} {v : VData}
    (hput : t.putRaw h v = some t') (hw : t.wfT) (hne : h' ≠ h) :
    t'.get h' = t.get h' := by
  obtain ⟨ha, hi, -, -, -⟩ := putRaw_fields hput
  unfold Table.get
  rw [hi, lookupOff_append_ne _ _ _ _ hne, ha]
  cases hl : lookupOff t.index h' with
  | none => rfl
  | some off =>
    simp only
    obtain ⟨w, hwv, hdec⟩ := hw.2.1 (h', off) (lookupOff_mem _ _ _ hl)
    simp only at hdec
    rw [decode_extend _ hdec, hdec]

theorem wfT_putRaw {t t' : Table} {h : Nat} {v : VData}
    (hput : t.putRaw h v = some t') (hw : t.wfT)
    (hnotin : h ∉ t.index.map Prod.fst) (hv : v.valid) : t'.wfT := by
  obtain ⟨ha, hi, hal, hinuse, hfit⟩ := putRaw_fields hput
  obtain ⟨hnd, hent, hin, harena⟩ := hw
  refine ⟨?_, ?_, ?_, ?_⟩
  · rw [hi, List.map_append, List.nodup_append]
    refine ⟨hnd, by simp, ?_⟩
    intro k hk hk'
    simp only [List.map_cons, List.map_nil, List.mem_singleton] at hk'
    exact hnotin (hk' ▸ hk)
  · intro p hp
    rw [hi, List.mem_append] at hp
    rw [ha]
    rcases hp with hp | hp
    · obtain ⟨w, hwv, hdec⟩ := hent p hp
      exact ⟨w, hwv, decode_extend _ hdec⟩
    · simp only [List.mem_singleton] at hp
      subst hp
      refine ⟨v, hv, ?_⟩
      have := decode_encode t.arena [] v hv
      rwa [List.append_nil] at this
  · rw [hi, ha, List.map_append, List.sum_append, hinuse, hin]
    have hold : ∀ p ∈ t.index,
        sizeAt (t.arena ++ encodeRecord v) p.2 = sizeAt t.arena p.2 := by
      intro p hp
      obtain ⟨w, hwv, hdec⟩ := hent p hp
      unfold sizeAt
      rw [hdec, decode_extend _ hdec]
    rw [List.map_congr_left hold]
    have hnew : sizeAt (t.arena ++ encodeRecord v) t.arena.length = encodedSize v := by
      unfold sizeAt
      have := decode_encode t.arena [] v hv
      rw [List.append_nil] at this
      rw [this]
    simp [hnew]
  · rw [ha, hal, List.length_append, encodeRecord_length]
    exact hfit

theorem putRaw_isSome_of_fit {t : Table} {h : Nat} {v : VData}
    (hfit : t.arena.length + encodedSize v ≤ t.allocated) :
    ∃ t', t.putRaw h v = some t' := by
  unfold Table.putRaw
  rw [if_neg (by unfold Table.offset; omega)]
  exact ⟨_, rfl⟩

/-! ## Storage-level helper lemmas -/

theorem splitLast_concat (xs : List α) (x : α) : splitLast (xs ++ [x]) = some (xs, x) := by
  induction xs with
  | nil => rfl
  | cons a xs ih =>
    obtain ⟨b, rest, hbr⟩ : ∃ b rest, xs ++ [x] = b :: rest := by
      cases xs with
      | nil => exact ⟨x, [], rfl⟩
      | cons c cs => exact ⟨c, cs ++ [x], rfl⟩
    show splitLast (a :: (xs ++ [x])) = some (a :: xs, x)
    rw [hbr]
    show (match splitLast (b :: rest) with
      | none => none
      | some (init, last) => some (a :: init, last)) = some (a :: xs, x)
    rw [← hbr, ih]

theorem exists_concat {l : List α} (h : l ≠ []) : ∃ xs x, l = xs ++ [x] := by
  induction l with
  | nil => exact absurd rfl h
  | cons a l ih =>
    cases l with
    | nil => exact ⟨[], a, rfl⟩
    | cons b l' =>
      obtain ⟨xs, x, hx⟩ := ih (by simp)
      exact ⟨a :: xs, x, by rw [hx, List.cons_append]⟩

theorem findSome?_congr {f g : α → Option β} (l : List α) (h : ∀ x ∈ l, f x = g x) :
    l.findSome? f = l.findSome? g := by
  induction l with
  | nil => rfl
  | cons a l ih =>
    rw [List.findSome?_cons, List.findSome?_cons, h a (by simp),
      ih (fun x hx => h x (by simp [hx]))]

/-- The keys of a Table, oldest entry first. -/
def tableKeys (t : Table) : List Nat := t.index.map Prod.fst

theorem liveKeys_eq (s : Storage) : liveKeys s = s.tables.flatMap tableKeys := rfl

theorem get_map_deleteKey (ts : List Table) (h h' : Nat) (hne : h' ≠ h) :
    (ts.map (fun t => t.deleteKey h)).findSome? (fun t => t.get h') =
      ts.findSome? (fun t => t.get h') := by
  rw [List.findSome?_map]
  exact findSome?_congr ts (fun t _ => deleteKey_get_ne t h h' hne)

theorem get_map_deleteKey_self (ts : List Table) (h : Nat) :
    (ts.map (fun t => t.deleteKey h)).findSome? (fun t => t.get h) = none := by
  rw [List.findSome?_eq_none_iff]
  intro t ht
  rw [List.mem_map] at ht
  obtain ⟨u, hu, rfl⟩ := ht
  exact deleteKey_get_self u h

theorem keys_map_deleteKey (ts : List Table) (h : Nat) :
    (ts.map (fun t => t.deleteKey h)).flatMap tableKeys =
      (ts.flatMap tableKeys).filter (fun k => !(k == h)) := by
  induction ts with
  | nil => rfl
  | cons t ts ih =>
    rw [List.map_cons, List.flatMap_cons, List.flatMap_cons, List.filter_append, ih]
    unfold tableKeys
    rw [deleteKey_index, keys_filter_ne]

theorem wfT_map_deleteKey (ts : List Table) (h : Nat) (hw : ∀ t ∈ ts, t.wfT) :
    ∀ t ∈ ts.map (fun t => t.deleteKey h), t.wfT := by
  intro t ht
  rw [List.mem_map] at ht
  obtain ⟨u, hu, rfl⟩ := ht
  exact wfT_deleteKey u h (hw u hu)

theorem check_iff_mem (s : Storage) (h : Nat) :
    s.check h = true ↔ h ∈ liveKeys s := by
  unfold Storage.check
  rw [List.any_eq_true, liveKeys_eq]
  constructor
  · intro ⟨t, ht, hsome⟩
    exact List.mem_flatMap.mpr ⟨t, ht, (lookupOff_isSome_iff _ _).mp hsome⟩
  · intro hmem
    obtain ⟨t, ht, hk⟩ := List.mem_flatMap.mp hmem
    exact ⟨t, ht, (lookupOff_isSome_iff _ _).mpr hk⟩

theorem get_isSome_iff_mem (s : Storage) (h : Nat) (hwf : s.wf) :
    (s.get h).isSome = true ↔ h ∈ liveKeys s := by
  unfold Storage.get
  rw [List.findSome?_isSome_iff, liveKeys_eq]
  constructor
  · intro ⟨t, ht, hsome⟩
    apply List.mem_flatMap.mpr
    refine ⟨t, ht, ?_⟩
    unfold Table.get at hsome
    rcases hl : lookupOff t.index h with _ | off
    · rw [hl] at hsome
      simp at hsome
    · exact (lookupOff_isSome_iff _ _).mp (by rw [hl]; rfl)
  · intro hmem
    obtain ⟨t, ht, hk⟩ := List.mem_flatMap.mp hmem
    refine ⟨t, ht, ?_⟩
    obtain ⟨off, hl⟩ := Option.isSome_iff_exists.mp ((lookupOff_isSome_iff _ _).mpr hk)
    obtain ⟨w, hwv, hdec⟩ := (hwf.2.2 t ht).2.1 (h, off) (lookupOff_mem _ _ _ hl)
    simp only at hdec
    unfold Table.get
    rw [hl]
    simp only
    rw [hdec]
    rfl

theorem findSome?_singleton (f : α → Option β) (a : α) : [a].findSome? f = f a := by
  rw [List.findSome?_cons]
  cases f a <;> rfl

theorem not_mem_filter_ne_self (l : List Nat) (h : Nat) :
    h ∉ l.filter (fun k => !(k == h)) := by
  intro hc
  rw [List.mem_filter] at hc
  simp at hc

theorem not_mem_keys_deleteKey (t : Table) (h : Nat) :
    h ∉ tableKeys (t.deleteKey h) := by
  unfold tableKeys
  rw [deleteKey_index, keys_filter_ne]
  exact not_mem_filter_ne_self _ h

theorem get_eq_findSome? (ts : List Table) (h : Nat) :
    Storage.get ⟨ts⟩ h = ts.findSome? (fun t => t.get h) := rfl

theorem liveKeys_mk (ts : List Table) : liveKeys ⟨ts⟩ = ts.flatMap tableKeys := rfl

/-- The central Put lemma: on a well-formed Storage and a valid record,
`Put` succeeds, stores the record, leaves every other hkey's lookup
unchanged, preserves well-formedness, and reports table growth through
the *fragmented* Boolean. -/
theorem put_spec (s : Storage) (h : Nat) (v : VData) (hwf : s.wf) (hv : v.valid) :
    ∃ s' frag, s.put h v = .ok (s', frag) ∧
      s'.wf ∧
      s'.get h = some v ∧
      (∀ h', h' ≠ h → s'.get h' = s.get h') ∧
      liveKeys s' = (liveKeys s).filter (fun k => !(k == h)) ++ [h] ∧
      totalOffset s' = totalOffset s + encodedSize v ∧
      (frag = false → s'.tables.map Table.allocated = s.tables.map Table.allocated ∧
        s'.tables.length = s.tables.length) ∧
      (frag = true → s'.tables.length = s.tables.length + 1) := by
  obtain ⟨hne, hnd, hwt⟩ := hwf
  obtain ⟨older0, told, htab⟩ := exists_concat hne
  have hsplit : splitLast (s.tables.map (fun t => t.deleteKey h)) =
      some (older0.map (fun t => t.deleteKey h), told.deleteKey h) := by
    rw [htab, List.map_append, List.map_cons, List.map_nil]
    exact splitLast_concat _ _
  have hdwf : (told.deleteKey h).wfT :=
    wfT_deleteKey told h (hwt told (by rw [htab]; simp))
  have holderwf : ∀ t ∈ older0.map (fun t => t.deleteKey h), t.wfT :=
    wfT_map_deleteKey older0 h (fun t ht => hwt t (by rw [htab]; simp [ht]))
  have hnotin : h ∉ (told.deleteKey h).index.map Prod.fst :=
    not_mem_keys_deleteKey told h
  have hlive : liveKeys s = older0.flatMap tableKeys ++ tableKeys told := by
    rw [liveKeys_eq, htab, List.flatMap_append, List.flatMap_cons, List.flatMap_nil,
      List.append_nil]
  have hgetsrc : ∀ h', s.get h' =
      (older0.findSome? (fun t => t.get h')).or (told.get h') := by
    intro h'
    unfold Storage.get
    rw [htab, List.findSome?_append, findSome?_singleton]
  cases hput : (told.deleteKey h).putRaw h v with
  | some nt =>
    have hputeq : s.put h v =
        .ok (⟨older0.map (fun t => t.deleteKey h) ++ [nt]⟩, false) := by
      unfold Storage.put
      rw [if_neg (by have := hv.1; omega), if_neg (by have := hv.2.1; omega), hsplit]
      simp only [hput]
    have he : liveKeys ⟨older0.map (fun t => t.deleteKey h) ++ [nt]⟩ =
        (liveKeys s).filter (fun k => !(k == h)) ++ [h] := by
      obtain ⟨-, hi, -, -, -⟩ := putRaw_fields hput
      rw [liveKeys_mk, List.flatMap_append, List.flatMap_cons, List.flatMap_nil,
        List.append_nil, keys_map_deleteKey, hlive, List.filter_append]
      unfold tableKeys
      rw [hi, List.map_append, deleteKey_index, keys_filter_ne]
      simp [List.append_assoc]
    refine ⟨_, _, hputeq, ⟨by simp, ?ndcase, ?wtcase⟩, ?getself, ?getothers,
      he, ?offcase, ?nofrag, ?yesfrag⟩
    case ndcase =>
      rw [he, List.nodup_append]
      refine ⟨hnd.filter _, by simp, ?_⟩
      intro k hk hk'
      simp only [List.mem_singleton] at hk'
      subst hk'
      exact not_mem_filter_ne_self _ k hk
    case wtcase =>
      intro t ht
      rw [List.mem_append] at ht
      rcases ht with ht | ht
      · exact holderwf t ht
      · simp only [List.mem_singleton] at ht
        subst ht
        exact wfT_putRaw hput hdwf hnotin hv
    case getself =>
      rw [get_eq_findSome?, List.findSome?_append, get_map_deleteKey_self,
        findSome?_singleton, putRaw_get_self hput hnotin hv]
      rfl
    case getothers =>
      intro h' hne'
      rw [get_eq_findSome?, List.findSome?_append, findSome?_singleton,
        putRaw_get_ne hput hdwf hne', deleteKey_get_ne told h h' hne',
        get_map_deleteKey older0 h h' hne', hgetsrc h']
    case offcase =>
      obtain ⟨ha, -, -, -, -⟩ := putRaw_fields hput
      unfold totalOffset
      rw [htab]
      simp only [List.map_append, List.sum_append, List.map_map, List.map_cons,
        List.map_nil, List.sum_cons, List.sum_nil]
      have h1 : older0.map (Table.offset ∘ fun t => t.deleteKey h) =
          older0.map Table.offset :=
        List.map_congr_left
          (fun t _ => congrArg List.length (deleteKey_arena t h))
      have h2 : nt.offset = told.offset + encodedSize v := by
        unfold Table.offset
        rw [ha, List.length_append, deleteKey_arena, encodeRecord_length]
      rw [h1, h2]
      omega
    case nofrag =>
      intro _
      obtain ⟨-, -, hal, -, -⟩ := putRaw_fields hput
      constructor
      · rw [htab]
        simp only [List.map_append, List.map_map, List.map_cons, List.map_nil]
        have h1 : older0.map (Table.allocated ∘ fun t => t.deleteKey h) =
            older0.map Table.allocated :=
          List.map_congr_left (fun t _ => deleteKey_allocated t h)
        rw [h1, hal, deleteKey_allocated]
      · rw [htab]
        simp
    case yesfrag =>
      intro hc
      exact absurd hc (by simp)
  | none =>
    have hfit : ([] : List Nat).length + encodedSize v ≤
        (newTable (max (max minimumSize (2 * (told.deleteKey h).allocated))
          (encodedSize v))).allocated := by
      unfold newTable
      simp only [List.length_nil, Nat.zero_add]
      calc encodedSize v ≤ max (max minimumSize (2 * (told.deleteKey h).allocated))
            (encodedSize v) := le_max_right _ _
        _ ≤ _ := le_max_left _ _
    obtain ⟨nt, hput2⟩ := putRaw_isSome_of_fit (t := newTable _) (h := h) (v := v) hfit
    have hntkeys : (newTable (max (max minimumSize (2 * (told.deleteKey h).allocated))
        (encodedSize v))).index.map Prod.fst = [] := by
      simp [newTable]
    have hputeq : s.put h v =
        .ok (⟨older0.map (fun t => t.deleteKey h) ++ [told.deleteKey h, nt]⟩, true) := by
      unfold Storage.put
      rw [if_neg (by have := hv.1; omega), if_neg (by have := hv.2.1; omega), hsplit]
      simp only [hput, hput2]
    have hindexnt : nt.index = [(h, 0)] := by
      obtain ⟨-, hi, -, -, -⟩ := putRaw_fields hput2
      rw [hi]
      simp [newTable]
    have he : liveKeys ⟨older0.map (fun t => t.deleteKey h) ++ [told.deleteKey h, nt]⟩ =
        (liveKeys s).filter (fun k => !(k == h)) ++ [h] := by
      rw [liveKeys_mk, List.flatMap_append, List.flatMap_cons, List.flatMap_cons,
        List.flatMap_nil, List.append_nil, keys_map_deleteKey, hlive, List.filter_append]
      unfold tableKeys
      rw [hindexnt, deleteKey_index, keys_filter_ne]
      simp [List.append_assoc]
    refine ⟨_, _, hputeq, ⟨by simp, ?ndcase2, ?wtcase2⟩, ?getself2, ?getothers2,
      he, ?offcase2, ?nofrag2, ?yesfrag2⟩
    case ndcase2 =>
      rw [he, List.nodup_append]
      refine ⟨hnd.filter _, by simp, ?_⟩
      intro k hk hk'
      simp only [List.mem_singleton] at hk'
      subst hk'
      exact not_mem_filter_ne_self _ k hk
    case wtcase2 =>
      intro t ht
      rw [List.mem_append] at ht
      rcases ht with ht | ht
      · exact holderwf t ht
      · rcases List.mem_cons.mp ht with ht' | ht'
        · subst ht'
          exact hdwf
        · rcases List.mem_cons.mp ht' with ht2 | hf
          · subst ht2
            exact wfT_putRaw hput2 (wfT_newTable _) (by rw [hntkeys]; simp) hv
          · exact absurd hf (by simp)
    case getself2 =>
      rw [get_eq_findSome?, List.findSome?_append, get_map_deleteKey_self]
      have hsing : [told.deleteKey h, nt].findSome? (fun t => t.get h) = some v := by
        rw [List.findSome?_cons, deleteKey_get_self, findSome?_singleton,
          putRaw_get_self hput2 (by rw [hntkeys]; simp) hv]
      rw [hsing]
      rfl
    case getothers2 =>
      intro h' hne'
      have hntnone : nt.get h' = none := by
        unfold Table.get
        rw [hindexnt, lookupOff_cons, if_neg (fun hc => hne' hc.symm), lookupOff_nil]
      rw [get_eq_findSome?, List.findSome?_append]
      have hpair : [told.deleteKey h, nt].findSome? (fun t => t.get h') = told.get h' := by
        rw [List.findSome?_cons, deleteKey_get_ne told h h' hne']
        cases hg : told.get h' with
        | some w => rfl
        | none => rw [findSome?_singleton, hntnone]
      rw [hpair, get_map_deleteKey older0 h h' hne', hgetsrc h']
    case offcase2 =>
      obtain ⟨ha, -, -, -, -⟩ := putRaw_fields hput2
      unfold totalOffset
      rw [htab]
      simp only [List.map_append, List.sum_append, List.map_map, List.map_cons,
        List.map_nil, List.sum_cons, List.sum_nil]
      have h1 : older0.map (Table.offset ∘ fun t => t.deleteKey h) =
          older0.map Table.offset :=
        List.map_congr_left
          (fun t _ => congrArg List.length (deleteKey_arena t h))
      have h2 : nt.offset = encodedSize v := by
        unfold Table.offset
        rw [ha]
        simp [newTable, encodeRecord_length]
      have h3 : (told.deleteKey h).offset = told.offset :=
        congrArg List.length (deleteKey_arena told h)
      rw [h1, h2, h3]
      omega
    case nofrag2 =>
      intro hc
      exact absurd hc (by simp)
    case yesfrag2 =>
      intro _
      rw [htab]
      simp

/-! ## Delete lemmas -/

theorem encodedSize_pos (v : VData) : 0 < encodedSize v := by
  unfold encodedSize
  omega

theorem deleteKey_garbage_pos (u : Table) (h : Nat) (hw : u.wfT) (hk : h ∈ tableKeys u) :
    0 < (u.deleteKey h).garbage := by
  obtain ⟨off, hl⟩ := Option.isSome_iff_exists.mp ((lookupOff_isSome_iff _ _).mpr hk)
  obtain ⟨w, hwv, hdec⟩ := hw.2.1 (h, off) (lookupOff_mem _ _ _ hl)
  simp only at hdec
  unfold Table.deleteKey
  rw [hl]
  show 0 < u.garbage + sizeAt u.arena off
  unfold sizeAt
  rw [hdec]
  show 0 < u.garbage + encodedSize w
  have := encodedSize_pos w
  omega

/-- The central Delete lemma: deleting a stored hkey succeeds, removes
exactly that hkey, preserves well-formedness, and signals the
*fragmented* hint (aggregate garbage is positive after a real delete). -/
theorem delete_spec (s : Storage) (h : Nat) (hwf : s.wf) (hmem : s.check h = true) :
    ∃ s', s.delete h = .ok (s', true) ∧
      s'.wf ∧
      s'.get h = none ∧
      s'.check h = false ∧
      (∀ h', h' ≠ h → s'.get h' = s.get h') ∧
      liveKeys s' = (liveKeys s).filter (fun k => !(k == h)) ∧
      s'.tables.length = s.tables.length ∧
      s'.tables.map Table.allocated = s.tables.map Table.allocated := by
  obtain ⟨hne, hnd, hwt⟩ := hwf
  have hmemk : h ∈ liveKeys s := (check_iff_mem s h).mp hmem
  obtain ⟨u, hu, hku⟩ := List.mem_flatMap.mp (by rw [← liveKeys_eq]; exact hmemk)
  have hfrag : 0 < totalGarbage ⟨s.tables.map (fun t => t.deleteKey h)⟩ := by
    have hrw : totalGarbage ⟨s.tables.map (fun t => t.deleteKey h)⟩ =
        ((s.tables.map (fun t => t.deleteKey h)).map Table.garbage).sum := rfl
    rw [hrw]
    have hmm : (u.deleteKey h).garbage ∈
        (s.tables.map (fun t => t.deleteKey h)).map Table.garbage := by
      simp only [List.map_map]
      exact List.mem_map_of_mem _ hu
    have hge := List.single_le_sum (fun (x : Nat) _ => Nat.zero_le x) _ hmm
    have hpos := deleteKey_garbage_pos u h (hwt u hu) hku
    omega
  have hlivedel : liveKeys ⟨s.tables.map (fun t => t.deleteKey h)⟩ =
      (liveKeys s).filter (fun k => !(k == h)) := by
    rw [liveKeys_mk, keys_map_deleteKey, liveKeys_eq]
  have hdeq : s.delete h =
      .ok (⟨s.tables.map (fun t => t.deleteKey h)⟩, true) := by
    unfold Storage.delete
    rw [if_pos hmem]
    have hd : decide (0 < totalGarbage ⟨s.tables.map (fun t => t.deleteKey h)⟩) = true :=
      decide_eq_true hfrag
    simp only [hd]
  refine ⟨_, hdeq, ⟨by simpa using hne, ?_, wfT_map_deleteKey _ h hwt⟩, ?_, ?_, ?_,
    hlivedel, by simp, ?_⟩
  · rw [hlivedel]
    exact hnd.filter _
  · rw [get_eq_findSome?, get_map_deleteKey_self]
  · rw [← Bool.not_eq_true, check_iff_mem, hlivedel]
    exact not_mem_filter_ne_self _ h
  · intro h' hne'
    rw [get_eq_findSome?, get_map_deleteKey _ h h' hne']
    rfl
  · simp only [List.map_map]
    exact List.map_congr_left (fun t _ => deleteKey_allocated t h)

/-! ## Records and re-insertion lemmas -/

theorem lookupOff_eq_of_mem_nodup (l : List (Nat × Nat)) (k off : Nat)
    (hnd : (l.map Prod.fst).Nodup) (hmem : (k, off) ∈ l) : lookupOff l k = some off := by
  induction l with
  | nil => simp at hmem
  | cons p l ih =>
    rw [List.map_cons, List.nodup_cons] at hnd
    rw [lookupOff_cons]
    rcases List.mem_cons.mp hmem with he | hm
    · subst he
      rw [if_pos rfl]
    · have hp1 : p.1 ≠ k := by
        intro hc
        exact hnd.1 (by rw [hc]; exact List.mem_map_of_mem Prod.fst hm)
      rw [if_neg hp1]
      exact ih hnd.2 hm

theorem filterMap_fst_of_entryOk (arena : List Nat) (idx : List (Nat × Nat)) :
    (∀ p ∈ idx, entryOk arena p) →
      (idx.filterMap (fun p => (decodeRecord arena p.2).map (fun r => (p.1, r.1)))).map Prod.fst
        = idx.map Prod.fst := by
  induction idx with
  | nil => intro _; rfl
  | cons p l ih =>
    intro hall
    obtain ⟨w, hwv, hdec⟩ := hall p (by simp)
    rw [List.filterMap_cons, hdec]
    simp only [Option.map_some']
    rw [List.map_cons, List.map_cons, ih (fun q hq => hall q (by simp [hq]))]

theorem records_map_fst (t : Table) (hw : t.wfT) :
    t.records.map Prod.fst = tableKeys t :=
  filterMap_fst_of_entryOk t.arena t.index hw.2.1

theorem records_get_mem (t : Table) (hw : t.wfT) (p : Nat × VData) (hp : p ∈ t.records) :
    p.2.valid ∧ t.get p.1 = some p.2 := by
  obtain ⟨q, hq, hsome⟩ := List.mem_filterMap.mp hp
  obtain ⟨w, hwv, hdec⟩ := hw.2.1 q hq
  rw [hdec] at hsome
  simp only [Option.map_some'] at hsome
  obtain rfl := Option.some.inj hsome
  refine ⟨hwv, ?_⟩
  have hl : lookupOff t.index q.1 = some q.2 :=
    lookupOff_eq_of_mem_nodup t.index q.1 q.2 hw.1 hq
  unfold Table.get
  rw [hl]
  simp only
  rw [hdec]
  rfl

theorem mem_records_of_key (t : Table) (hw : t.wfT) (k : Nat) (hk : k ∈ tableKeys t) :
    ∃ w, (k, w) ∈ t.records := by
  obtain ⟨q, hq, hq1⟩ := List.mem_map.mp hk
  obtain ⟨w, hwv, hdec⟩ := hw.2.1 q hq
  refine ⟨w, List.mem_filterMap.mpr ⟨q, hq, ?_⟩⟩
  rw [hdec]
  simp only [Option.map_some']
  rw [hq1]

/-- Folding a list of fresh records through the Put path stores every one
of them, touches no other hkey, and preserves well-formedness. -/
theorem putsFold_spec (rs : List (Nat × VData)) (acc : Storage)
    (hwf : acc.wf) (hnd : (rs.map Prod.fst).Nodup)
    (hval : ∀ p ∈ rs, p.2.valid)
    (hdisj : ∀ k ∈ rs.map Prod.fst, k ∉ liveKeys acc) :
    (putsFold rs acc).wf ∧
      (∀ p ∈ rs, (putsFold rs acc).get p.1 = some p.2) ∧
      (∀ h, h ∉ rs.map Prod.fst → (putsFold rs acc).get h = acc.get h) ∧
      (∀ k, k ∈ liveKeys (putsFold rs acc) ↔ k ∈ liveKeys acc ∨ k ∈ rs.map Prod.fst) := by
  induction rs generalizing acc with
  | nil =>
    refine ⟨hwf, by simp, fun h _ => rfl, fun k => by simp [putsFold]⟩
  | cons p rs ih =>
    rw [List.map_cons, List.nodup_cons] at hnd
    obtain ⟨s1, frag, hpeq, hwf1, hget1, hgetne1, hlive1, -, -, -⟩ :=
      put_spec acc p.1 p.2 hwf (hval p (by simp))
    have hstep : putsFold (p :: rs) acc = putsFold rs s1 := by
      unfold putsFold
      rw [List.foldl_cons, hpeq]
    have hfilter : (liveKeys acc).filter (fun k => !(k == p.1)) = liveKeys acc := by
      apply List.filter_eq_self.mpr
      intro a ha
      simp only [Bool.not_eq_eq_eq_not, Bool.not_true, beq_eq_false_iff_ne, ne_eq]
      intro hc
      exact hdisj p.1 (by simp) (hc ▸ ha)
    have hlive1' : liveKeys s1 = liveKeys acc ++ [p.1] := by
      rw [hlive1, hfilter]
    have hdisj' : ∀ k ∈ rs.map Prod.fst, k ∉ liveKeys s1 := by
      intro k hk hc
      rw [hlive1', List.mem_append, List.mem_singleton] at hc
      rcases hc with hc | hc
      · exact hdisj k (by simp [hk]) hc
      · exact hnd.1 (hc ▸ hk)
    obtain ⟨ihwf, ihget, ihgetne, ihlive⟩ :=
      ih s1 hwf1 hnd.2 (fun q hq => hval q (by simp [hq])) hdisj'
    refine ⟨by rw [hstep]; exact ihwf, ?_, ?_, ?_⟩
    · intro q hq
      rcases List.mem_cons.mp hq with hq' | hq'
      · subst hq'
        rw [hstep, ihgetne q.1 hnd.1, hget1]
      · rw [hstep]
        exact ihget q hq'
    · intro h hh
      rw [List.map_cons, List.mem_cons] at hh
      push_neg at hh
      rw [hstep, ihgetne h hh.2, hgetne1 h hh.1]
    · intro k
      rw [hstep, ihlive k, hlive1', List.mem_append, List.mem_singleton,
        List.map_cons, List.mem_cons]
      tauto

/-! ## Compaction lemmas -/

theorem table_get_none_of_not_mem (t : Table) (h : Nat) (hh : h ∉ tableKeys t) :
    t.get h = none := by
  unfold Table.get
  rw [(lookupOff_eq_none_iff _ _).mpr hh]

theorem get_empty_index (t : Table) (h : Nat) (hemp : t.index = []) : t.get h = none := by
  apply table_get_none_of_not_mem
  unfold tableKeys
  rw [hemp]
  simp

theorem moveAll_spec (src : Table) (rest : List Table)
    (hwf : (⟨src :: rest⟩ : Storage).wf) (hrest : rest ≠ []) :
    (moveAll src ⟨rest⟩).wf ∧
      (∀ h, (moveAll src ⟨rest⟩).get h = Storage.get ⟨src :: rest⟩ h) ∧
      (∀ k, k ∈ liveKeys (moveAll src ⟨rest⟩) ↔ k ∈ liveKeys ⟨src :: rest⟩) := by
  obtain ⟨-, hnd, hwt⟩ := hwf
  have hsrcwf : src.wfT := hwt src (by simp)
  have hlivecons : liveKeys ⟨src :: rest⟩ = tableKeys src ++ liveKeys ⟨rest⟩ := by
    rw [liveKeys_mk, liveKeys_mk, List.flatMap_cons]
  have hnd' := hlivecons ▸ hnd
  rw [List.nodup_append] at hnd'
  have hrestwf : (⟨rest⟩ : Storage).wf :=
    ⟨hrest, hnd'.2.1, fun t ht => hwt t (by simp [ht])⟩
  have hreckeys : src.records.map Prod.fst = tableKeys src := records_map_fst src hsrcwf
  have hrecnd : (src.records.map Prod.fst).Nodup := by rw [hreckeys]; exact hnd'.1
  have hrecval : ∀ p ∈ src.records, p.2.valid :=
    fun p hp => (records_get_mem src hsrcwf p hp).1
  have hrecdisj : ∀ k ∈ src.records.map Prod.fst, k ∉ liveKeys ⟨rest⟩ := by
    intro k hk
    rw [hreckeys] at hk
    exact hnd'.2.2 hk
  obtain ⟨pfwf, pfget, pfgetne, pflive⟩ :=
    putsFold_spec src.records ⟨rest⟩ hrestwf hrecnd hrecval hrecdisj
  have hgetsome : ∀ h w, src.get h = some w →
      Storage.get ⟨src :: rest⟩ h = some w := by
    intro h w hsg
    rw [get_eq_findSome?, List.findSome?_cons, hsg]
  have hgetnone : ∀ h, src.get h = none →
      Storage.get ⟨src :: rest⟩ h = Storage.get ⟨rest⟩ h := by
    intro h hsg
    rw [get_eq_findSome?, List.findSome?_cons, hsg]
    rfl
  refine ⟨pfwf, ?_, ?_⟩
  · intro h
    by_cases hh : h ∈ tableKeys src
    · obtain ⟨w, hw⟩ := mem_records_of_key src hsrcwf h hh
      have hsrcget : src.get h = some w := (records_get_mem src hsrcwf (h, w) hw).2
      have hmget : (moveAll src ⟨rest⟩).get h = some w := pfget (h, w) hw
      rw [hmget, hgetsome h w hsrcget]
    · have hsrcget : src.get h = none := table_get_none_of_not_mem src h hh
      have hmget : (moveAll src ⟨rest⟩).get h = Storage.get ⟨rest⟩ h :=
        pfgetne h (by rw [hreckeys]; exact hh)
      rw [hmget, hgetnone h hsrcget]
  · intro k
    rw [show liveKeys (moveAll src ⟨rest⟩) = liveKeys (putsFold src.records ⟨rest⟩) from rfl,
      pflive k, hreckeys, hlivecons, List.mem_append]
    tauto

theorem finishPass_spec (m : Storage) (hw : m.wf) :
    (finishPass m).1.wf ∧ (∀ h, (finishPass m).1.get h = m.get h) ∧
      ((finishPass m).2 = true → (finishPass m).1.tables.length = 1) := by
  cases hm : m.tables with
  | nil => exact absurd hm hw.1
  | cons t ts =>
    cases ts with
    | nil =>
      have hme : m = ⟨[t]⟩ := by rw [← hm]
      by_cases hemp : t.index.isEmpty
      · have hfp : finishPass m = (⟨[newTable minimumSize]⟩, true) := by
          rw [hme]
          show (if t.index.isEmpty = true then ((⟨[newTable minimumSize]⟩ : Storage), true)
            else ((⟨[t]⟩ : Storage), true)) = _
          rw [if_pos hemp]
        rw [hfp]
        refine ⟨wf_new minimumSize, ?_, fun _ => rfl⟩
        intro h
        rw [hme, get_eq_findSome?, get_eq_findSome?, findSome?_singleton,
          findSome?_singleton, get_empty_index t h (List.isEmpty_iff.mp hemp),
          get_empty_index (newTable minimumSize) h rfl]
      · have hfp : finishPass m = (m, true) := by
          rw [hme]
          show (if t.index.isEmpty = true then ((⟨[newTable minimumSize]⟩ : Storage), true)
            else ((⟨[t]⟩ : Storage), true)) = _
          rw [if_neg hemp]
        rw [hfp]
        exact ⟨hw, fun h => rfl, fun _ => by rw [hm]; rfl⟩
    | cons u us =>
      have hme : m = ⟨t :: u :: us⟩ := by rw [← hm]
      have hfp : finishPass m = (m, false) := by
        rw [hme]
        rfl
      rw [hfp]
      exact ⟨hw, fun h => rfl, fun hc => absurd hc (by simp)⟩

theorem compact_spec (s : Storage) (hwf : s.wf) :
    (s.compactTables).1.wf ∧ (∀ h, (s.compactTables).1.get h = s.get h) ∧
      ((s.compactTables).2 = true → (s.compactTables).1.tables.length = 1) := by
  cases hs : s.tables with
  | nil => exact absurd hs hwf.1
  | cons oldest rest =>
    have hse : s = ⟨oldest :: rest⟩ := by rw [← hs]
    cases rest with
    | nil =>
      have hcomp : s.compactTables = finishPass ⟨[oldest]⟩ := by
        unfold Storage.compactTables
        rw [hs]
      obtain ⟨fwf, fget, flen⟩ := finishPass_spec ⟨[oldest]⟩ (hse ▸ hwf)
      rw [hcomp]
      exact ⟨fwf, fun h => by rw [fget h, ← hse], flen⟩
    | cons u us =>
      have hcomp : s.compactTables = finishPass (moveAll oldest ⟨u :: us⟩) := by
        unfold Storage.compactTables
        rw [hs]
      obtain ⟨mwf, mget, mlive⟩ :=
        moveAll_spec oldest (u :: us) (hse ▸ hwf) (by simp)
      obtain ⟨fwf, fget, flen⟩ := finishPass_spec (moveAll oldest ⟨u :: us⟩) mwf
      rw [hcomp]
      exact ⟨fwf, fun h => by rw [fget h, mget h, ← hse], flen⟩

theorem drive_spec (fuel : Nat) (s : Storage) (hwf : s.wf) :
    (driveCompaction fuel s).1.wf ∧
      (∀ h, (driveCompaction fuel s).1.get h = s.get h) ∧
      ((driveCompaction fuel s).2 = true →
        (driveCompaction fuel s).1.tables.length = 1) := by
  induction fuel generalizing s with
  | zero => exact ⟨hwf, fun h => rfl, fun hc => absurd hc (by simp [driveCompaction])⟩
  | succ fuel ih =>
    obtain ⟨cwf, cget, clen⟩ := compact_spec s hwf
    cases hc : s.compactTables with
    | mk s' done =>
      cases done with
      | true =>
        have hd : driveCompaction (fuel + 1) s = (s', true) := by
          show (match s.compactTables with
            | (s', true) => (s', true)
            | (s', false) => driveCompaction fuel s') = (s', true)
          rw [hc]
        rw [hd]
        rw [hc] at cwf cget clen
        exact ⟨cwf, cget, fun _ => clen rfl⟩
      | false =>
        have hd : driveCompaction (fuel + 1) s = driveCompaction fuel s' := by
          show (match s.compactTables with
            | (s', true) => (s', true)
            | (s', false) => driveCompaction fuel s') = driveCompaction fuel s'
          rw [hc]
        rw [hc] at cwf cget
        obtain ⟨iwf, iget, ilen⟩ := ih s' cwf
        rw [hd]
        exact ⟨iwf, fun h => by rw [iget h, cget h], ilen⟩

theorem table_records_empty (t : Table) (hemp : t.index = []) : t.records = [] := by
  unfold Table.records
  rw [hemp]
  rfl

theorem compact_empty (s : Storage) (hne : s.tables ≠ [])
    (hemp : ∀ t ∈ s.tables, t.index = []) :
    (s.compactTables).1.tables ≠ [] ∧
      (∀ t ∈ (s.compactTables).1.tables, t.index = []) ∧
      ((s.compactTables).2 = true → (s.compactTables).1 = ⟨[newTable minimumSize]⟩) := by
  cases hs : s.tables with
  | nil => exact absurd hs hne
  | cons oldest rest =>
    have hoemp : oldest.index = [] := hemp oldest (by rw [hs]; simp)
    cases rest with
    | nil =>
      have hcomp : s.compactTables = (⟨[newTable minimumSize]⟩, true) := by
        unfold Storage.compactTables
        rw [hs]
        show finishPass ⟨[oldest]⟩ = _
        show (if oldest.index.isEmpty = true then ((⟨[newTable minimumSize]⟩ : Storage), true)
          else ((⟨[oldest]⟩ : Storage), true)) = _
        rw [if_pos (by rw [hoemp]; rfl)]
      rw [hcomp]
      refine ⟨by simp, ?_, fun _ => rfl⟩
      intro t ht
      simp only [List.mem_singleton] at ht
      subst ht
      rfl
    | cons u us =>
      have hmv : moveAll oldest ⟨u :: us⟩ = ⟨u :: us⟩ := by
        unfold moveAll
        rw [table_records_empty oldest hoemp]
        rfl
      have hcomp : s.compactTables = finishPass ⟨u :: us⟩ := by
        unfold Storage.compactTables
        rw [hs]
        show finishPass (moveAll oldest ⟨u :: us⟩) = _
        rw [hmv]
      have huemp : u.index = [] := hemp u (by rw [hs]; simp)
      cases us with
      | nil =>
        have hfp : finishPass (⟨[u]⟩ : Storage) = (⟨[newTable minimumSize]⟩, true) := by
          show (if u.index.isEmpty = true then ((⟨[newTable minimumSize]⟩ : Storage), true)
            else ((⟨[u]⟩ : Storage), true)) = _
          rw [if_pos (by rw [huemp]; rfl)]
        rw [hcomp, hfp]
        refine ⟨by simp, ?_, fun _ => rfl⟩
        intro t ht
        simp only [List.mem_singleton] at ht
        subst ht
        rfl
      | cons w ws =>
        have hfp : finishPass (⟨u :: w :: ws⟩ : Storage) = (⟨u :: w :: ws⟩, false) := rfl
        rw [hcomp, hfp]
        refine ⟨by simp, ?_, fun hc => absurd hc (by simp)⟩
        intro t ht
        exact hemp t (by rw [hs]; simp [ht])

theorem drive_empty (fuel : Nat) (s : Storage) (hne : s.tables ≠ [])
    (hemp : ∀ t ∈ s.tables, t.index = [])
    (hdone : (driveCompaction fuel s).2 = true) :
    (driveCompaction fuel s).1 = ⟨[newTable minimumSize]⟩ := by
  induction fuel generalizing s with
  | zero => exact absurd hdone (by simp [driveCompaction])
  | succ fuel ih =>
    obtain ⟨cne, cemp, cdone⟩ := compact_empty s hne hemp
    cases hc : s.compactTables with
    | mk s' done =>
      rw [hc] at cne cemp cdone
      cases done with
      | true =>
        have hd : driveCompaction (fuel + 1) s = (s', true) := by
          show (match s.compactTables with
            | (s', true) => (s', true)
            | (s', false) => driveCompaction fuel s') = (s', true)
          rw [hc]
        rw [hd]
        exact cdone rfl
      | false =>
        have hd : driveCompaction (fuel + 1) s = driveCompaction fuel s' := by
          show (match s.compactTables with
            | (s', true) => (s', true)
            | (s', false) => driveCompaction fuel s') = driveCompaction fuel s'
          rw [hc]
        rw [hd] at hdone ⊢
        exact ih s' cne cemp hdone

/-! ## Workload drivers mirroring the storage test-suite -/

/-- The Put workload of the test-suite without the compaction worker
(Test_Put / Test_Get): put the items in order, stopping on a real error. -/
def runPuts : Storage → List (Nat × VData) → Except StorageErr Storage
  | s, [] => .ok s
  | s, p :: rest =>
    match s.put p.1 p.2 with
    | .ok (s', _) => runPuts s' rest
    | .error e => .error e

/-- Plain deletes in order, ignoring the fragmented hint and missing keys
(Test_Delete ignores the Delete return value). -/
def runDeletes : Storage → List Nat → Storage
  | s, [] => s
  | s, h :: rest =>
    match s.delete h with
    | .ok (s', _) => runDeletes s' rest
    | .error _ => runDeletes s rest

/-- One Put followed, on the fragmented signal, by the caller's compaction
loop (Test_CompactTables); reports the new state, whether the Put
fragmented, and whether the compaction loop (if any) reached the steady
state within the fuel. -/
def putCompact (fuel : Nat) (s : Storage) (h : Nat) (v : VData) :
    Except StorageErr (Storage × Bool × Bool) :=
  match s.put h v with
  | .error e => .error e
  | .ok (s', false) => .ok (s', false, true)
  | .ok (s', true) =>
    let d := driveCompaction fuel s'
    .ok (d.1, true, d.2)

/-- The insert phase of Test_CompactTables / Test_PurgeTables: put each
item, driving compaction to completion on every fragmented signal.
Returns the final state, whether any Put fragmented, and whether every
compaction loop completed. -/
def runPutsCompact (fuel : Nat) : Storage → List (Nat × VData) →
    Except StorageErr (Storage × Bool × Bool)
  | s, [] => .ok (s, false, true)
  | s, p :: rest =>
    match putCompact fuel s p.1 p.2 with
    | .error e => .error e
    | .ok (s', frag, done) =>
      match runPutsCompact fuel s' rest with
      | .error e => .error e
      | .ok (s'', frag', done') => .ok (s'', frag || frag', done && done')

/-- The delete phase of Test_PurgeTables: delete each hkey, driving
compaction to completion on every fragmented signal; the Boolean reports
whether every compaction loop completed. -/
def runDeletesCompact (fuel : Nat) : Storage → List Nat → Storage × Bool
  | s, [] => (s, true)
  | s, h :: rest =>
    match s.delete h with
    | .error _ => runDeletesCompact fuel s rest
    | .ok (s', false) => runDeletesCompact fuel s' rest
    | .ok (s', true) =>
      let d := driveCompaction fuel s'
      let r := runDeletesCompact fuel d.1 rest
      (r.1, d.2 && r.2)

/-! ## Workload lemmas -/

theorem drive_live (fuel : Nat) (s : Storage) (hwf : s.wf) (k : Nat) :
    k ∈ liveKeys (driveCompaction fuel s).1 ↔ k ∈ liveKeys s := by
  obtain ⟨dwf, dget, -⟩ := drive_spec fuel s hwf
  rw [← get_isSome_iff_mem _ _ dwf, ← get_isSome_iff_mem _ _ hwf, dget k]

theorem runPuts_spec (items : List (Nat × VData)) (s : Storage)
    (hwf : s.wf) (hnd : (items.map Prod.fst).Nodup)
    (hval : ∀ p ∈ items, p.2.valid) :
    ∃ out, runPuts s items = .ok out ∧ out.wf ∧
      (∀ p ∈ items, out.get p.1 = some p.2) ∧
      (∀ h, h ∉ items.map Prod.fst → out.get h = s.get h) ∧
      (∀ k, k ∈ liveKeys out ↔ k ∈ liveKeys s ∨ k ∈ items.map Prod.fst) := by
  induction items generalizing s with
  | nil =>
    exact ⟨s, rfl, hwf, by simp, fun h _ => rfl, fun k => by simp⟩
  | cons p rest ih =>
    rw [List.map_cons, List.nodup_cons] at hnd
    obtain ⟨s1, frag, hpeq, hwf1, hget1, hgetne1, hlive1, -, -, -⟩ :=
      put_spec s p.1 p.2 hwf (hval p (by simp))
    have hrun : runPuts s (p :: rest) = runPuts s1 rest := by
      show (match s.put p.1 p.2 with
        | .ok (s', _) => runPuts s' rest
        | .error e => .error e) = runPuts s1 rest
      rw [hpeq]
    obtain ⟨out, ihrun, ihwf, ihget, ihgetne, ihlive⟩ :=
      ih s1 hwf1 hnd.2 (fun q hq => hval q (by simp [hq]))
    refine ⟨out, by rw [hrun]; exact ihrun, ihwf, ?_, ?_, ?_⟩
    · intro q hq
      rcases List.mem_cons.mp hq with hq' | hq'
      · subst hq'
        rw [ihgetne q.1 hnd.1, hget1]
      · exact ihget q hq'
    · intro h hh
      rw [List.map_cons, List.mem_cons] at hh
      push_neg at hh
      rw [ihgetne h hh.2, hgetne1 h hh.1]
    · intro k
      rw [ihlive k, hlive1, List.mem_append, List.mem_singleton, List.mem_filter,
        List.map_cons, List.mem_cons]
      by_cases hk : k = p.1 <;> simp [hk]

theorem runDeletes_spec (hs : List Nat) (s : Storage) (hwf : s.wf) :
    (runDeletes s hs).wf ∧
      liveKeys (runDeletes s hs) = (liveKeys s).filter (fun k => !(hs.contains k)) := by
  induction hs generalizing s with
  | nil =>
    refine ⟨hwf, ?_⟩
    have : (liveKeys s).filter (fun k => !(([] : List Nat).contains k)) = liveKeys s := by
      apply List.filter_eq_self.mpr
      intro a _
      rfl
    rw [this]
    rfl
  | cons h rest ih =>
    by_cases hchk : s.check h = true
    · obtain ⟨s', hdeq, hwf', -, -, -, hlive', -, -⟩ := delete_spec s h hwf hchk
      have hrun : runDeletes s (h :: rest) = runDeletes s' rest := by
        show (match s.delete h with
          | .ok (s', _) => runDeletes s' rest
          | .error _ => runDeletes s rest) = runDeletes s' rest
        rw [hdeq]
      obtain ⟨ihwf, ihlive⟩ := ih s' hwf'
      refine ⟨by rw [hrun]; exact ihwf, ?_⟩
      rw [hrun, ihlive, hlive', List.filter_filter]
      apply List.filter_congr
      intro a _
      rw [List.contains_cons]
      cases hae : a == h <;> simp [hae]
    · have herr : ∃ e, s.delete h = .error e := by
        unfold Storage.delete
        rw [if_neg hchk]
        exact ⟨_, rfl⟩
      obtain ⟨e, herr⟩ := herr
      have hrun : runDeletes s (h :: rest) = runDeletes s rest := by
        show (match s.delete h with
          | .ok (s', _) => runDeletes s' rest
          | .error _ => runDeletes s rest) = runDeletes s rest
        rw [herr]
      obtain ⟨ihwf, ihlive⟩ := ih s hwf
      refine ⟨by rw [hrun]; exact ihwf, ?_⟩
      rw [hrun, ihlive]
      apply List.filter_congr
      intro a ha
      have hanh : a ≠ h := by
        intro hc
        subst hc
        exact hchk ((check_iff_mem s a).mpr ha)
      rw [List.contains_cons]
      have : (a == h) = false := beq_eq_false_iff_ne.mpr hanh
      rw [this]
      simp

theorem empty_of_no_live (s : Storage) (hnl : ∀ k, k ∉ liveKeys s) :
    ∀ t ∈ s.tables, t.index = [] := by
  intro t ht
  cases hidx : t.index with
  | nil => rfl
  | cons q l =>
    exfalso
    apply hnl q.1
    rw [liveKeys_eq]
    apply List.mem_flatMap.mpr
    refine ⟨t, ht, ?_⟩
    unfold tableKeys
    rw [hidx]
    simp

theorem runPutsCompact_spec (fuel : Nat) (items : List (Nat × VData)) (s : Storage)
    (hwf : s.wf) (hnd : (items.map Prod.fst).Nodup)
    (hval : ∀ p ∈ items, p.2.valid) :
    ∃ out frag done, runPutsCompact fuel s items = .ok (out, frag, done) ∧
      out.wf ∧
      (∀ p ∈ items, out.get p.1 = some p.2) ∧
      (∀ h, h ∉ items.map Prod.fst → out.get h = s.get h) ∧
      (∀ k, k ∈ liveKeys out ↔ k ∈ liveKeys s ∨ k ∈ items.map Prod.fst) ∧
      (frag = false → out.tables.map Table.allocated = s.tables.map Table.allocated ∧
        totalOffset out = totalOffset s + (items.map (fun p => encodedSize p.2)).sum ∧
        out.tables.length = s.tables.length) ∧
      (done = true → frag = true → out.tables.length = 1) := by
  induction items generalizing s with
  | nil =>
    refine ⟨s, false, true, rfl, hwf, by simp, fun h _ => rfl, fun k => by simp,
      fun _ => ⟨rfl, by simp, rfl⟩, fun _ hc => absurd hc (by simp)⟩
  | cons p rest ih =>
    rw [List.map_cons, List.nodup_cons] at hnd
    obtain ⟨s1, frag1, hpeq, hwf1, hget1, hgetne1, hlive1, htoff1, hnofrag1, hyesfrag1⟩ :=
      put_spec s p.1 p.2 hwf (hval p (by simp))
    have hmemlive1 : ∀ k, k ∈ liveKeys s1 ↔ k ∈ liveKeys s ∨ k = p.1 := by
      intro k
      rw [hlive1, List.mem_append, List.mem_singleton, List.mem_filter]
      by_cases hk : k = p.1 <;> simp [hk]
    cases frag1 with
    | false =>
      have hpc : putCompact fuel s p.1 p.2 = .ok (s1, false, true) := by
        show (match s.put p.1 p.2 with
          | Except.error e => Except.error e
          | Except.ok (s', false) => Except.ok (s', false, true)
          | Except.ok (s', true) =>
            let d := driveCompaction fuel s'
            Except.ok (d.1, true, d.2)) = _
        rw [hpeq]
      obtain ⟨out, frag2, done2, ihrun, ihwf, ihget, ihgetne, ihlive, ihnofrag, ihlen⟩ :=
        ih s1 hwf1 hnd.2 (fun q hq => hval q (by simp [hq]))
      have hrun : runPutsCompact fuel s (p :: rest) = .ok (out, frag2, done2) := by
        show (match putCompact fuel s p.1 p.2 with
          | Except.error e => Except.error e
          | Except.ok (s', frag, done) =>
            match runPutsCompact fuel s' rest with
            | Except.error e => Except.error e
            | Except.ok (s'', frag', done') => Except.ok (s'', frag || frag', done && done')) = _
        rw [hpc]
        show (match runPutsCompact fuel s1 rest with
          | Except.error e => Except.error e
          | Except.ok (s'', frag', done') =>
            Except.ok (s'', false || frag', true && done')) = _
        rw [ihrun]
        simp
      refine ⟨out, frag2, done2, hrun, ihwf, ?_, ?_, ?_, ?_, ihlen⟩
      · intro q hq
        rcases List.mem_cons.mp hq with hq' | hq'
        · subst hq'
          rw [ihgetne q.1 hnd.1, hget1]
        · exact ihget q hq'
      · intro h hh
        rw [List.map_cons, List.mem_cons] at hh
        push_neg at hh
        rw [ihgetne h hh.2, hgetne1 h hh.1]
      · intro k
        rw [ihlive k, hmemlive1 k, List.map_cons, List.mem_cons]
        tauto
      · intro hfrag2
        obtain ⟨hal2, htoff2, hlen2⟩ := ihnofrag hfrag2
        obtain ⟨hal1, hlen1⟩ := hnofrag1 rfl
        refine ⟨by rw [hal2, hal1], ?_, by rw [hlen2, hlen1]⟩
        rw [htoff2, htoff1, List.map_cons, List.sum_cons]
        omega
    | true =>
      have hpc : putCompact fuel s p.1 p.2 =
          .ok ((driveCompaction fuel s1).1, true, (driveCompaction fuel s1).2) := by
        show (match s.put p.1 p.2 with
          | Except.error e => Except.error e
          | Except.ok (s', false) => Except.ok (s', false, true)
          | Except.ok (s', true) =>
            let d := driveCompaction fuel s'
            Except.ok (d.1, true, d.2)) = _
        rw [hpeq]
      obtain ⟨dwf, dget, dlen⟩ := drive_spec fuel s1 hwf1
      obtain ⟨out, frag2, done2, ihrun, ihwf, ihget, ihgetne, ihlive, ihnofrag, ihlen⟩ :=
        ih (driveCompaction fuel s1).1 dwf hnd.2 (fun q hq => hval q (by simp [hq]))
      have hrun : runPutsCompact fuel s (p :: rest) =
          .ok (out, true, (driveCompaction fuel s1).2 && done2) := by
        show (match putCompact fuel s p.1 p.2 with
          | Except.error e => Except.error e
          | Except.ok (s', frag, done) =>
            match runPutsCompact fuel s' rest with
            | Except.error e => Except.error e
            | Except.ok (s'', frag', done') => Except.ok (s'', frag || frag', done && done')) = _
        rw [hpc]
        show (match runPutsCompact fuel (driveCompaction fuel s1).1 rest with
          | Except.error e => Except.error e
          | Except.ok (s'', frag', done') =>
            Except.ok (s'', true || frag', (driveCompaction fuel s1).2 && done')) = _
        rw [ihrun]
        simp
      refine ⟨out, true, (driveCompaction fuel s1).2 && done2, hrun, ihwf,
        ?_, ?_, ?_, fun hc => absurd hc (by simp), ?_⟩
      · intro q hq
        rcases List.mem_cons.mp hq with hq' | hq'
        · subst hq'
          rw [ihgetne q.1 hnd.1, dget q.1, hget1]
        · exact ihget q hq'
      · intro h hh
        rw [List.map_cons, List.mem_cons] at hh
        push_neg at hh
        rw [ihgetne h hh.2, dget h, hgetne1 h hh.1]
      · intro k
        rw [ihlive k, drive_live fuel s1 hwf1 k, hmemlive1 k, List.map_cons,
          List.mem_cons]
        tauto
      · intro hdone _
        rw [Bool.and_eq_true] at hdone
        have hlen1 : (driveCompaction fuel s1).1.tables.length = 1 := dlen hdone.1
        cases frag2 with
        | true => exact ihlen hdone.2 rfl
        | false =>
          obtain ⟨-, -, hlen2⟩ := ihnofrag rfl
          rw [hlen2, hlen1]

theorem runDeletesCompact_spec (fuel : Nat) (hs : List Nat) (s : Storage)
    (hwf : s.wf) (hnd : hs.Nodup) (hne : hs ≠ [])
    (hcover : ∀ k, k ∈ liveKeys s ↔ k ∈ hs) :
    (runDeletesCompact fuel s hs).2 = true →
      (runDeletesCompact fuel s hs).1 = ⟨[newTable minimumSize]⟩ := by
  induction hs generalizing s with
  | nil => exact absurd rfl hne
  | cons h rest ih =>
    rw [List.nodup_cons] at hnd
    have hchk : s.check h = true := (check_iff_mem s h).mpr ((hcover h).mpr (by simp))
    obtain ⟨s', hdeq, hwf', -, -, -, hlive', -, -⟩ := delete_spec s h hwf hchk
    have hrun : runDeletesCompact fuel s (h :: rest) =
        ((runDeletesCompact fuel (driveCompaction fuel s').1 rest).1,
          (driveCompaction fuel s').2 &&
            (runDeletesCompact fuel (driveCompaction fuel s').1 rest).2) := by
      show (match s.delete h with
        | Except.error _ => runDeletesCompact fuel s rest
        | Except.ok (s', false) => runDeletesCompact fuel s' rest
        | Except.ok (s', true) =>
          let d := driveCompaction fuel s'
          let r := runDeletesCompact fuel d.1 rest
          (r.1, d.2 && r.2)) = _
      rw [hdeq]
    obtain ⟨dwf, dget, -⟩ := drive_spec fuel s' hwf'
    have hcovs' : ∀ k, k ∈ liveKeys s' ↔ k ∈ rest := by
      intro k
      rw [hlive', List.mem_filter]
      constructor
      · rintro ⟨hk, hkb⟩
        rcases List.mem_cons.mp ((hcover k).mp hk) with hc | hc
        · subst hc
          simp at hkb
        · exact hc
      · intro hk
        have hkh : k ≠ h := fun hc => hnd.1 (hc ▸ hk)
        refine ⟨(hcover k).mpr (by simp [hk]), by simp [hkh]⟩
    have hcov' : ∀ k, k ∈ liveKeys (driveCompaction fuel s').1 ↔ k ∈ rest := by
      intro k
      rw [drive_live fuel s' hwf' k]
      exact hcovs' k
    by_cases hrest : rest = []
    · subst hrest
      rw [hrun]
      intro hdone
      simp only [Bool.and_eq_true] at hdone
      have hempty : ∀ t ∈ s'.tables, t.index = [] :=
        empty_of_no_live s' (fun k hk => by
          have := (hcovs' k).mp hk
          simp at this)
      show (runDeletesCompact fuel (driveCompaction fuel s').1 []).1 = _
      show (driveCompaction fuel s').1 = _
      exact drive_empty fuel s' hwf'.1 hempty hdone.1
    · intro hdone
      rw [hrun] at hdone ⊢
      simp only [Bool.and_eq_true] at hdone
      exact ih (driveCompaction fuel s').1 dwf hnd.2 hrest hcov' hdone.2

/-! ## Snapshot: Export and Import (spec §4.4, §6) -/

/-- Big-endian 64-bit field of the snapshot format. -/
def u64 (n : Nat) : List Nat := natToBytesBE 8 n

/-- Big-endian 32-bit field of the snapshot format. -/
def u32 (n : Nat) : List Nat := natToBytesBE 4 n

/-- Big-endian 16-bit field of the snapshot format. -/
def u16 (n : Nat) : List Nat := natToBytesBE 2 n

/-- The snapshot magic "OLRS" (spec §6). -/
def magicBytes : List Nat := [79, 76, 82, 83]

/-- Modelled from the spec: the per-Table section of the snapshot (spec
§6): `allocated(u64), inuse(u64), garbage(u64), offset(u64), arena bytes,
index_len(u32), index_len × (hkey:u64, offset:u32)`. -/
def exportTable (t : Table) : List Nat :=
  u64 t.allocated ++ u64 t.inuse ++ u64 t.garbage ++ u64 t.offset ++ t.arena ++
    u32 t.index.length ++ t.index.flatMap (fun p => u64 p.1 ++ u32 p.2)

/-- Modelled from the spec: `Export()` — magic, version 1, table count,
then each Table (spec §4.4, §6). -/
def Storage.export (s : Storage) : List Nat :=
  magicBytes ++ u16 1 ++ u32 s.tables.length ++ s.tables.flatMap exportTable

/-- Parser for the serialized index of one Table. -/
def parseIndex : Nat → List Nat → Option (List (Nat × Nat) × List Nat)
  | 0, bs => some ([], bs)
  | n + 1, bs =>
    match takeN bs 8 with
    | none => none
    | some (hB, r1) =>
      match takeN r1 4 with
      | none => none
      | some (oB, r2) =>
        match parseIndex n r2 with
        | none => none
        | some (idx, r3) => some ((bytesToNatBE hB, bytesToNatBE oB) :: idx, r3)

/-- Parser for one Table section of the snapshot. -/
def parseTable (bs : List Nat) : Option (Table × List Nat) :=
  match takeN bs 8 with
  | none => none
  | some (aB, r1) =>
    match takeN r1 8 with
    | none => none
    | some (iB, r2) =>
      match takeN r2 8 with
      | none => none
      | some (gB, r3) =>
        match takeN r3 8 with
        | none => none
        | some (oB, r4) =>
          match takeN r4 (bytesToNatBE oB) with
          | none => none
          | some (arena, r5) =>
            match takeN r5 4 with
            | none => none
            | some (ilB, r6) =>
              match parseIndex (bytesToNatBE ilB) r6 with
              | none => none
              | some (idx, r7) =>
                some ({ allocated := bytesToNatBE aB, arena := arena,
                        inuse := bytesToNatBE iB, garbage := bytesToNatBE gB,
                        index := idx }, r7)

/-- Parser for a fixed number of Table sections. -/
def parseTables : Nat → List Nat → Option (List Table × List Nat)
  | 0, bs => some ([], bs)
  | n + 1, bs =>
    match parseTable bs with
    | none => none
    | some (t, r1) =>
      match parseTables n r1 with
      | none => none
      | some (ts, r2) => some (t :: ts, r2)

/-- Modelled from the spec: `Import(bytes)` — rebuild a Storage from a
snapshot, rejecting a bad magic, an unknown version, or inconsistent
counts (spec §4.4, §7 corrupt-snapshot). -/
def importStorage (bs : List Nat) : Option Storage :=
  match takeN bs 4 with
  | none => none
  | some (m, r1) =>
    if m ≠ magicBytes then none
    else
      match takeN r1 2 with
      | none => none
      | some (vB, r2) =>
        if bytesToNatBE vB ≠ 1 then none
        else
          match takeN r2 4 with
          | none => none
          | some (nB, r3) =>
            match parseTables (bytesToNatBE nB) r3 with
            | none => none
            | some (ts, r4) => if r4 ≠ [] then none else some ⟨ts⟩

/-- Field widths a Table must respect for the snapshot format to be
lossless (spec §6: u64 counters, u32 index offsets and count). -/
abbrev Table.exportable (t : Table) : Prop :=
  t.allocated < 18446744073709551616 ∧ t.inuse < 18446744073709551616 ∧
    t.garbage < 18446744073709551616 ∧ t.arena.length < 18446744073709551616 ∧
    t.index.length < 4294967296 ∧
    ∀ p ∈ t.index, p.1 < 18446744073709551616 ∧ p.2 < 4294967296

/-- Field widths a Storage must respect for the snapshot format. -/
abbrev Storage.exportable (s : Storage) : Prop :=
  s.tables.length < 4294967296 ∧ ∀ t ∈ s.tables, t.exportable

theorem bytesToNatBE_u64 (n : Nat) (h : n < 18446744073709551616) :
    bytesToNatBE (u64 n) = n :=
  bytesToNatBE_natToBytesBE 8 n (by norm_num; omega)

theorem bytesToNatBE_u32 (n : Nat) (h : n < 4294967296) :
    bytesToNatBE (u32 n) = n :=
  bytesToNatBE_natToBytesBE 4 n (by norm_num; omega)

theorem parseIndex_roundtrip (idx : List (Nat × Nat)) (rest : List Nat)
    (hb : ∀ p ∈ idx, p.1 < 18446744073709551616 ∧ p.2 < 4294967296) :
    parseIndex idx.length (idx.flatMap (fun p => u64 p.1 ++ u32 p.2) ++ rest) =
      some (idx, rest) := by
  induction idx with
  | nil => rfl
  | cons p l ih =>
    obtain ⟨h1, h2⟩ := hb p (by simp)
    have ht1 : takeN (u64 p.1 ++ (u32 p.2 ++ (l.flatMap (fun p => u64 p.1 ++ u32 p.2)
        ++ rest))) 8 = some (u64 p.1, u32 p.2 ++ (l.flatMap (fun p => u64 p.1 ++ u32 p.2)
        ++ rest)) := takeN_natToBytesBE 8 p.1 _
    have ht2 : takeN (u32 p.2 ++ (l.flatMap (fun p => u64 p.1 ++ u32 p.2) ++ rest)) 4 =
        some (u32 p.2, l.flatMap (fun p => u64 p.1 ++ u32 p.2) ++ rest) :=
      takeN_natToBytesBE 4 p.2 _
    have hihr := ih (fun q hq => hb q (by simp [hq]))
    rw [List.flatMap_cons]
    show parseIndex (l.length + 1) _ = _
    unfold parseIndex
    simp only [List.append_assoc, ht1, ht2, hihr, bytesToNatBE_u64 p.1 h1,
      bytesToNatBE_u32 p.2 h2]

theorem parseTable_roundtrip (t : Table) (rest : List Nat) (hb : t.exportable) :
    parseTable (exportTable t ++ rest) = some (t, rest) := by
  obtain ⟨ha, hi, hg, hoff, hil, hidx⟩ := hb
  have ht1 : ∀ b, takeN (u64 t.allocated ++ b) 8 = some (u64 t.allocated, b) :=
    fun b => takeN_natToBytesBE 8 t.allocated b
  have ht2 : ∀ b, takeN (u64 t.inuse ++ b) 8 = some (u64 t.inuse, b) :=
    fun b => takeN_natToBytesBE 8 t.inuse b
  have ht3 : ∀ b, takeN (u64 t.garbage ++ b) 8 = some (u64 t.garbage, b) :=
    fun b => takeN_natToBytesBE 8 t.garbage b
  have ht4 : ∀ b, takeN (u64 t.offset ++ b) 8 = some (u64 t.offset, b) :=
    fun b => takeN_natToBytesBE 8 t.offset b
  have ht5 : ∀ b, takeN (t.arena ++ b) t.arena.length = some (t.arena, b) :=
    fun b => takeN_append t.arena b
  have ht6 : ∀ b, takeN (u32 t.index.length ++ b) 4 = some (u32 t.index.length, b) :=
    fun b => takeN_natToBytesBE 4 t.index.length b
  have hoffv : bytesToNatBE (u64 t.offset) = t.arena.length :=
    bytesToNatBE_u64 t.offset hoff
  have hpi := parseIndex_roundtrip t.index rest hidx
  unfold exportTable parseTable
  simp only [List.append_assoc, ht1, ht2, ht3, ht4, hoffv, ht5, ht6,
    bytesToNatBE_u32 t.index.length hil, hpi, bytesToNatBE_u64 t.allocated ha,
    bytesToNatBE_u64 t.inuse hi, bytesToNatBE_u64 t.garbage hg]

theorem parseTables_roundtrip (ts : List Table) (rest : List Nat)
    (hb : ∀ t ∈ ts, t.exportable) :
    parseTables ts.length (ts.flatMap exportTable ++ rest) = some (ts, rest) := by
  induction ts with
  | nil => rfl
  | cons t ts ih =>
    have hpt := parseTable_roundtrip t (ts.flatMap exportTable ++ rest) (hb t (by simp))
    have hihr := ih (fun u hu => hb u (by simp [hu]))
    rw [List.flatMap_cons]
    show parseTables (ts.length + 1) _ = _
    unfold parseTables
    simp only [List.append_assoc, hpt, hihr]

/-- Round-trip of the snapshot format: importing an export rebuilds the
Storage exactly (spec §4.4 Guarantee). -/
theorem import_export (s : Storage) (hb : s.exportable) :
    importStorage s.export = some s := by
  obtain ⟨hlen, htb⟩ := hb
  have ht1 : ∀ b, takeN (magicBytes ++ b) 4 = some (magicBytes, b) :=
    fun b => takeN_append magicBytes b
  have ht2 : ∀ b, takeN (u16 1 ++ b) 2 = some (u16 1, b) :=
    fun b => takeN_natToBytesBE 2 1 b
  have ht3 : ∀ b, takeN (u32 s.tables.length ++ b) 4 = some (u32 s.tables.length, b) :=
    fun b => takeN_natToBytesBE 4 s.tables.length b
  have hv : bytesToNatBE (u16 1) = 1 := bytesToNatBE_natToBytesBE 2 1 (by norm_num)
  have hpt := parseTables_roundtrip s.tables [] htb
  rw [List.append_nil] at hpt
  unfold Storage.export importStorage
  simp only [List.append_assoc, ht1, ht2, ht3, hv,
    bytesToNatBE_u32 s.tables.length hlen, hpt]
  simp

/-! ## Range lemmas -/

theorem visitWhile_true (rs : List (Nat × VData)) :
    visitWhile (fun _ _ => true) rs = rs := by
  induction rs with
  | nil => rfl
  | cons p rest ih => simp [visitWhile, ih]

theorem flatMap_records_fst (ts : List Table) (hw : ∀ t ∈ ts, t.wfT) :
    (ts.flatMap Table.records).map Prod.fst = ts.flatMap tableKeys := by
  induction ts with
  | nil => rfl
  | cons t rest ih =>
    rw [List.flatMap_cons, List.flatMap_cons, List.map_append,
      records_map_fst t (hw t (by simp)), ih (fun u hu => hw u (by simp [hu]))]

theorem rangePairs_fst (s : Storage) (hwf : s.wf) :
    (rangePairs s).map Prod.fst = liveKeys s := by
  unfold rangePairs
  rw [liveKeys_eq]
  exact flatMap_records_fst s.tables hwf.2.2

theorem findSome_get_of_mem (ts : List Table) (hnd : (ts.flatMap tableKeys).Nodup)
    (t : Table) (ht : t ∈ ts) (h : Nat) (w : VData)
    (hk : h ∈ tableKeys t) (hg : t.get h = some w) :
    ts.findSome? (fun u => u.get h) = some w := by
  induction ts with
  | nil => simp at ht
  | cons u rest ih =>
    rw [List.flatMap_cons, List.nodup_append] at hnd
    rcases List.mem_cons.mp ht with he | htr
    · subst he
      rw [List.findSome?_cons, hg]
    · have hu : u.get h = none :=
        table_get_none_of_not_mem u h
          (fun hc => hnd.2.2 hc (List.mem_flatMap.mpr ⟨t, htr, hk⟩))
      rw [List.findSome?_cons, hu]
      show rest.findSome? (fun u => u.get h) = some w
      exact ih hnd.2.1 htr

theorem rangePairs_get (s : Storage) (hwf : s.wf) (p : Nat × VData)
    (hp : p ∈ rangePairs s) : s.get p.1 = some p.2 := by
  obtain ⟨t, ht, hrec⟩ := List.mem_flatMap.mp hp
  have hg : t.get p.1 = some p.2 := (records_get_mem t (hwf.2.2 t ht) p hrec).2
  have hk : p.1 ∈ tableKeys t := by
    rw [← records_map_fst t (hwf.2.2 t ht)]
    exact List.mem_map_of_mem Prod.fst hrec
  unfold Storage.get
  exact findSome_get_of_mem s.tables hwf.2.1 t ht p.1 p.2 hk hg

/-! ## The pub/sub wire-command parsers (protocol package) -/

/-- Error kind of the wire-command parsers (`errWrongNumber`). -/
inductive PErr where
  | wrongNumber
deriving DecidableEq, Repr

/-- The Publish command: channel and message (arguments 1 and 2). -/
structure Publish where
  channel : List Nat
  message : List Nat
deriving DecidableEq, Repr

/-- The Subscribe command: the subscribed channels. -/
structure Subscribe where
  channels : List (List Nat)
deriving DecidableEq, Repr

/-- The PSubscribe command: the subscribed patterns. -/
structure PSubscribe where
  patterns : List (List Nat)
deriving DecidableEq, Repr

/-- The argument-collection loop of ParseSubscribeCommand and
ParsePSubscribeCommand: it appends every remaining argument in order. -/
def collectArgs : List (List Nat) → List (List Nat)
  | [] => []
  | a :: rest => a :: collectArgs rest

/-- ParsePublishCommand: fewer than 3 arguments is a wrong-number error;
otherwise argument 1 is the channel and argument 2 the message (any
further arguments are never read). -/
def ParsePublishCommand (args : List (List Nat)) : Except PErr Publish :=
  if args.length < 3 then .error .wrongNumber
  else .ok { channel := args.getD 1 [], message := args.getD 2 [] }

/-- ParseSubscribeCommand: fewer than 2 arguments is a wrong-number error;
otherwise every argument after the command name is a channel. -/
def ParseSubscribeCommand (args : List (List Nat)) : Except PErr Subscribe :=
  if args.length < 2 then .error .wrongNumber
  else .ok { channels := collectArgs (args.drop 1) }

/-- ParsePSubscribeCommand: fewer than 2 arguments is a wrong-number
error; otherwise every argument after the command name is a pattern. -/
def ParsePSubscribeCommand (args : List (List Nat)) : Except PErr PSubscribe :=
  if args.length < 2 then .error .wrongNumber
  else .ok { patterns := collectArgs (args.drop 1) }

theorem collectArgs_eq (l : List (List Nat)) : collectArgs l = l := by
  induction l with
  | nil => rfl
  | cons a rest ih => rw [collectArgs, ih]

/-! ## The TCP client configuration (config package, client.go)

Durations are modelled as nanosecond counts (`Int`, matching Go's
`time.Duration`); `runtime.GOMAXPROCS(0)` is a parameter; the `Dialer`
function field is modelled by the Boolean `dialerSet` (nil-ness is all
Sanitize inspects); the Authentication sub-configuration is modelled by
the Boolean `authOk` parameter (Sanitize only propagates its error). -/

def second : Int := 1000000000

def DefaultDialTimeout : Int := 5 * second
def DefaultReadTimeout : Int := 3 * second
def DefaultIdleTimeout : Int := 300 * second
def DefaultMinRetryBackoff : Int := 8 * 1000000
def DefaultMaxRetryBackoff : Int := 512 * 1000000
def DefaultMaxRetries : Int := 3

/-- The sanitizable fields of config.Client (client.go). -/
structure Client where
  dialTimeout : Int
  readTimeout : Int
  writeTimeout : Int
  maxRetries : Int
  minRetryBackoff : Int
  maxRetryBackoff : Int
  poolSize : Int
  poolTimeout : Int
  idleTimeout : Int
  minIdleConns : Int
  maxConnAge : Int
  poolFIFO : Bool
  dialerSet : Bool
deriving DecidableEq, Repr

def sanDial (c : Client) : Client :=
  if c.dialTimeout = 0 then { c with dialTimeout := DefaultDialTimeout } else c

def sanDialer (c : Client) : Client :=
  if !c.dialerSet then { c with dialerSet := true } else c

def sanPoolSize (gomaxprocs : Int) (c : Client) : Client :=
  if c.poolSize = 0 then { c with poolSize := 10 * gomaxprocs } else c

def sanRead (c : Client) : Client :=
  if c.readTimeout = -1 then { c with readTimeout := 0 }
  else if c.readTimeout = 0 then { c with readTimeout := DefaultReadTimeout }
  else c

def sanWrite (c : Client) : Client :=
  if c.writeTimeout = -1 then { c with writeTimeout := 0 }
  else if c.writeTimeout = 0 then { c with writeTimeout := c.readTimeout }
  else c

def sanPoolTimeout (c : Client) : Client :=
  if c.poolTimeout = 0 then { c with poolTimeout := c.readTimeout + second } else c

def sanIdle (c : Client) : Client :=
  if c.idleTimeout = 0 then { c with idleTimeout := DefaultIdleTimeout } else c

def sanMaxRetries (c : Client) : Client :=
  if c.maxRetries = -1 then { c with maxRetries := 0 }
  else if c.maxRetries = 0 then { c with maxRetries := DefaultMaxRetries }
  else c

def sanMinRB (c : Client) : Client :=
  if c.minRetryBackoff = -1 then { c with minRetryBackoff := 0 }
  else if c.minRetryBackoff = 0 then { c with minRetryBackoff := DefaultMinRetryBackoff }
  else c

def sanMaxRB (c : Client) : Client :=
  if c.maxRetryBackoff = -1 then { c with maxRetryBackoff := 0 }
  else if c.maxRetryBackoff = 0 then { c with maxRetryBackoff := DefaultMaxRetryBackoff }
  else c

/-- Client.Sanitize (client.go): propagate the Authentication sanitize
error, then apply the field defaults in source order. -/
def Client.sanitize (authOk : Bool) (gomaxprocs : Int) (c : Client) : Option Client :=
  if !authOk then none
  else some (sanMaxRB (sanMinRB (sanMaxRetries (sanIdle (sanPoolTimeout (sanWrite
    (sanRead (sanPoolSize gomaxprocs (sanDialer (sanDial c))))))))))

theorem sanDial_eq (c : Client) : sanDial c =
    { c with dialTimeout := if c.dialTimeout = 0 then DefaultDialTimeout
        else c.dialTimeout } := by
  unfold sanDial
  split_ifs with h <;> simp [h]

theorem sanDialer_eq (c : Client) : sanDialer c = { c with dialerSet := true } := by
  unfold sanDialer
  split_ifs with h
  · rfl
  · have hds : c.dialerSet = true := by
      cases hb : c.dialerSet
      · rw [hb] at h
        exact absurd rfl h
      · rfl
    rw [← hds]

theorem sanPoolSize_eq (n : Int) (c : Client) : sanPoolSize n c =
    { c with poolSize := if c.poolSize = 0 then 10 * n else c.poolSize } := by
  unfold sanPoolSize
  split_ifs with h <;> simp [h]

theorem sanRead_eq (c : Client) : sanRead c =
    { c with readTimeout := if c.readTimeout = -1 then 0
        else if c.readTimeout = 0 then DefaultReadTimeout else c.readTimeout } := by
  unfold sanRead
  split_ifs with h1 h2 <;> simp [*]

theorem sanWrite_eq (c : Client) : sanWrite c =
    { c with writeTimeout := if c.writeTimeout = -1 then 0
        else if c.writeTimeout = 0 then c.readTimeout else c.writeTimeout } := by
  unfold sanWrite
  split_ifs with h1 h2 <;> simp [*]

theorem sanPoolTimeout_eq (c : Client) : sanPoolTimeout c =
    { c with poolTimeout := if c.poolTimeout = 0 then c.readTimeout + second
        else c.poolTimeout } := by
  unfold sanPoolTimeout
  split_ifs with h <;> simp [h]

theorem sanIdle_eq (c : Client) : sanIdle c =
    { c with idleTimeout := if c.idleTimeout = 0 then DefaultIdleTimeout
        else c.idleTimeout } := by
  unfold sanIdle
  split_ifs with h <;> simp [h]

theorem sanMaxRetries_eq (c : Client) : sanMaxRetries c =
    { c with maxRetries := if c.maxRetries = -1 then 0
        else if c.maxRetries = 0 then DefaultMaxRetries else c.maxRetries } := by
  unfold sanMaxRetries
  split_ifs with h1 h2 <;> simp [*]

theorem sanMinRB_eq (c : Client) : sanMinRB c =
    { c with minRetryBackoff := if c.minRetryBackoff = -1 then 0
        else if c.minRetryBackoff = 0 then DefaultMinRetryBackoff
        else c.minRetryBackoff } := by
  unfold sanMinRB
  split_ifs with h1 h2 <;> simp [*]

theorem sanMaxRB_eq (c : Client) : sanMaxRB c =
    { c with maxRetryBackoff := if c.maxRetryBackoff = -1 then 0
        else if c.maxRetryBackoff = 0 then DefaultMaxRetryBackoff
        else c.maxRetryBackoff } := by
  unfold sanMaxRB
  split_ifs with h1 h2 <;> simp [*]

/-- The full effect of Client.Sanitize when the Authentication
sub-configuration sanitizes successfully. -/
theorem sanitize_spec (c : Client) (n : Int) :
    Client.sanitize true n c = some
      { dialTimeout := if c.dialTimeout = 0 then DefaultDialTimeout else c.dialTimeout,
        readTimeout := if c.readTimeout = -1 then 0
          else if c.readTimeout = 0 then DefaultReadTimeout else c.readTimeout,
        writeTimeout := if c.writeTimeout = -1 then 0
          else if c.writeTimeout = 0 then
            (if c.readTimeout = -1 then 0
              else if c.readTimeout = 0 then DefaultReadTimeout else c.readTimeout)
          else c.writeTimeout,
        maxRetries := if c.maxRetries = -1 then 0
          else if c.maxRetries = 0 then DefaultMaxRetries else c.maxRetries,
        minRetryBackoff := if c.minRetryBackoff = -1 then 0
          else if c.minRetryBackoff = 0 then DefaultMinRetryBackoff
          else c.minRetryBackoff,
        maxRetryBackoff := if c.maxRetryBackoff = -1 then 0
          else if c.maxRetryBackoff = 0 then DefaultMaxRetryBackoff
          else c.maxRetryBackoff,
        poolSize := if c.poolSize = 0 then 10 * n else c.poolSize,
        poolTimeout := if c.poolTimeout = 0 then
            (if c.readTimeout = -1 then 0
              else if c.readTimeout = 0 then DefaultReadTimeout else c.readTimeout) + second
          else c.poolTimeout,
        idleTimeout := if c.idleTimeout = 0 then DefaultIdleTimeout else c.idleTimeout,
        minIdleConns := c.minIdleConns,
        maxConnAge := c.maxConnAge,
        poolFIFO := c.poolFIFO,
        dialerSet := true } := by
  show some (sanMaxRB (sanMinRB (sanMaxRetries (sanIdle (sanPoolTimeout (sanWrite
    (sanRead (sanPoolSize n (sanDialer (sanDial c)))))))))) = _
  rw [sanDial_eq, sanDialer_eq, sanPoolSize_eq, sanRead_eq, sanWrite_eq,
    sanPoolTimeout_eq, sanIdle_eq, sanMaxRetries_eq, sanMinRB_eq, sanMaxRB_eq]

/-! ## Concrete example values used by the witnesses -/

def exVData : VData := { key := [42], ttl := 7, value := [1, 2] }

def exVData2 : VData := { key := [43, 44], ttl := -4, value := [8, 9, 10] }

def exTable : Table :=
  { allocated := 1048576, arena := encodeRecord exVData,
    inuse := encodedSize exVData, garbage := 0, index := [(5, 0)] }

def exStorage : Storage := ⟨[exTable]⟩

def exItems : List (Nat × VData) := [(1, exVData), (2, exVData2)]

theorem exStorage_wf : exStorage.wf := by
  refine ⟨by simp [exStorage], by decide, ?_⟩
  intro t ht
  simp only [exStorage, List.mem_singleton] at ht
  subst ht
  refine ⟨by decide, ?_, by decide, by decide⟩
  intro p hp
  simp only [exTable, List.mem_singleton] at hp
  subst hp
  exact ⟨exVData, by decide, by decide⟩

theorem totalOffset_le (s : Storage) (hwf : s.wf) :
    totalOffset s ≤ (s.tables.map Table.allocated).sum := by
  unfold totalOffset
  apply List.sum_le_sum
  intro t ht
  exact (hwf.2.2 t ht).2.2.2

theorem contains_true_of_mem {l : List Nat} {k : Nat} (hk : k ∈ l) :
    l.contains k = true := by
  induction l with
  | nil => simp at hk
  | cons a rest ih =>
    rw [List.contains_cons]
    rcases List.mem_cons.mp hk with he | hm
    · simp [he]
    · rw [ih hm]
      simp

/-! ## The claims -/

/-- C1: for every Storage `S` (within the snapshot field widths),
importing the bytes produced by `Export(S)` yields a Storage `S'`
semantically equivalent to `S`: `S'.Len() = S.Len()` and for every hkey,
`S'.Get(hkey)` returns the same record (same key, ttl, value) as
`S.Get(hkey)`. -/
theorem claim_export_import (s : Storage) (hb : s.exportable) :
    ∃ s', importStorage s.export = some s' ∧
      s'.len = s.len ∧ ∀ h, s'.get h = s.get h :=
  ⟨s, import_export s hb, rfl, fun _ => rfl⟩

theorem claim_export_import_witness :
    exStorage.exportable ∧
      ∃ s', importStorage exStorage.export = some s' ∧
        s'.len = exStorage.len ∧ ∀ h, s'.get h = exStorage.get h :=
  ⟨by decide, claim_export_import exStorage (by decide)⟩

/-- C2: when a mutator (Put or Delete) returns alongside the fragmented
signal, the operation itself has succeeded: a Put always returns a
success carrying the fragmented Boolean, and Get on that hkey returns the
record just put whatever the Boolean was; a Delete of a stored hkey
succeeds even though it signals fragmented, and the hkey is gone. -/
theorem claim_fragmented_is_success :
    (∀ (s : Storage) (h : Nat) (v : VData), s.wf → v.valid →
      ∃ s' frag, s.put h v = .ok (s', frag) ∧ s'.get h = some v) ∧
    (∀ (s : Storage) (h : Nat), s.wf → s.check h = true →
      ∃ s', s.delete h = .ok (s', true) ∧ s'.get h = none) := by
  constructor
  · intro s h v hwf hv
    obtain ⟨s', frag, heq, -, hget, -⟩ := put_spec s h v hwf hv
    exact ⟨s', frag, heq, hget⟩
  · intro s h hwf hchk
    obtain ⟨s', heq, -, hget, -⟩ := delete_spec s h hwf hchk
    exact ⟨s', heq, hget⟩

theorem claim_fragmented_is_success_witness :
    (∃ s' frag, exStorage.put 6 exVData2 = .ok (s', frag) ∧ s'.get 6 = some exVData2) ∧
    (∃ s', exStorage.delete 5 = .ok (s', true) ∧ s'.get 5 = none) :=
  ⟨claim_fragmented_is_success.1 exStorage 6 exVData2 exStorage_wf (by decide),
   claim_fragmented_is_success.2 exStorage 5 exStorage_wf (by decide)⟩

/-- C3: for every sequence of Put operations with distinct hkeys and
valid records into a fresh Storage, every Put succeeds, and afterwards
Get of each hkey returns a record whose key, ttl and value equal those
passed to the corresponding Put. -/
theorem claim_put_get_roundtrip (sz : Nat) (items : List (Nat × VData))
    (hnd : (items.map Prod.fst).Nodup) (hval : ∀ p ∈ items, p.2.valid) :
    ∃ out, runPuts (Storage.new sz) items = .ok out ∧
      ∀ p ∈ items, out.get p.1 = some p.2 := by
  obtain ⟨out, hrun, -, hget, -, -⟩ :=
    runPuts_spec items (Storage.new sz) (wf_new sz) hnd hval
  exact ⟨out, hrun, hget⟩

theorem claim_put_get_roundtrip_witness :
    ∃ out, runPuts (Storage.new 0) exItems = .ok out ∧
      ∀ p ∈ exItems, out.get p.1 = some p.2 :=
  claim_put_get_roundtrip 0 exItems (by decide) (by decide)

/-- C4: inserting records with distinct hkeys into a Storage built with
New(0), driving the compaction loop to completion on every fragmented
signal: if the total encoded size exceeds the single initial
minimum-sized Table then at least one Put signals fragmented; every hkey
remains readable with its original record; and when every compaction loop
completed, the Storage holds exactly one Table. -/
theorem claim_triggered_compaction (fuel : Nat) (items : List (Nat × VData))
    (hnd : (items.map Prod.fst).Nodup) (hval : ∀ p ∈ items, p.2.valid) :
    ∃ out frag done,
      runPutsCompact fuel (Storage.new 0) items = .ok (out, frag, done) ∧
      (∀ p ∈ items, out.get p.1 = some p.2) ∧
      (done = true → out.tables.length = 1) ∧
      (minimumSize < (items.map (fun p => encodedSize p.2)).sum → frag = true) := by
  obtain ⟨out, frag, done, hrun, hwfout, hget, -, -, hnofrag, hlen⟩ :=
    runPutsCompact_spec fuel items (Storage.new 0) (wf_new 0) hnd hval
  refine ⟨out, frag, done, hrun, hget, ?_, ?_⟩
  · intro hdone
    cases frag with
    | true => exact hlen hdone rfl
    | false =>
      obtain ⟨-, -, h1⟩ := hnofrag rfl
      rw [h1]
      rfl
  · intro hgt
    by_contra hfrag
    have hfalse : frag = false := by
      cases frag
      · rfl
      · exact absurd rfl hfrag
    obtain ⟨hal, htoff, -⟩ := hnofrag hfalse
    have h1 : totalOffset out ≤ (out.tables.map Table.allocated).sum :=
      totalOffset_le out hwfout
    rw [hal] at h1
    have h2 : (((Storage.new 0).tables).map Table.allocated).sum = minimumSize := by
      simp [Storage.new, newTable]
    have h3 : totalOffset (Storage.new 0) = 0 := rfl
    rw [h2] at h1
    rw [h3] at htoff
    omega

theorem claim_triggered_compaction_witness :
    ∃ out frag done,
      runPutsCompact 2 (Storage.new 0) exItems = .ok (out, frag, done) ∧
      (∀ p ∈ exItems, out.get p.1 = some p.2) ∧
      (done = true → out.tables.length = 1) ∧
      (minimumSize < (exItems.map (fun p => encodedSize p.2)).sum → frag = true) :=
  claim_triggered_compaction 2 exItems (by decide) (by decide)

/-- C5: after inserting records with distinct hkeys into New(0) and then
deleting all of them, driving CompactTables to completion whenever a
mutator signals fragmented, the Storage ends as exactly one fresh
minimum-sized Table: a fully emptied Storage is purged back to a single
Table of `minimumSize` bytes. -/
theorem claim_purge_after_mass_delete (fuel : Nat) (items : List (Nat × VData))
    (hnd : (items.map Prod.fst).Nodup) (hval : ∀ p ∈ items, p.2.valid)
    (hne : items ≠ []) :
    ∃ out frag done,
      runPutsCompact fuel (Storage.new 0) items = .ok (out, frag, done) ∧
      ((runDeletesCompact fuel out (items.map Prod.fst)).2 = true →
        (runDeletesCompact fuel out (items.map Prod.fst)).1 =
          ⟨[newTable minimumSize]⟩) := by
  obtain ⟨out, frag, done, hrun, hwfout, -, -, hlive, -, -⟩ :=
    runPutsCompact_spec fuel items (Storage.new 0) (wf_new 0) hnd hval
  refine ⟨out, frag, done, hrun, ?_⟩
  apply runDeletesCompact_spec fuel (items.map Prod.fst) out hwfout hnd
    (by simpa using hne)
  intro k
  rw [hlive k]
  have : liveKeys (Storage.new 0) = [] := rfl
  rw [this]
  simp

theorem claim_purge_after_mass_delete_witness :
    ∃ out frag done,
      runPutsCompact 2 (Storage.new 0) exItems = .ok (out, frag, done) ∧
      ((runDeletesCompact 2 out (exItems.map Prod.fst)).2 = true →
        (runDeletesCompact 2 out (exItems.map Prod.fst)).1 =
          ⟨[newTable minimumSize]⟩) :=
  claim_purge_after_mass_delete 2 exItems (by decide) (by decide) (by decide)

/-- C6: after Delete(h) on a stored hkey h, Get(h) is key-not-found and
Check(h) is false; and after deleting every inserted hkey from a fresh
Storage, every Table has `inuse = 0` and an empty index. -/
theorem claim_delete_semantics :
    (∀ (s : Storage) (h : Nat), s.wf → s.check h = true →
      ∃ s' frag, s.delete h = .ok (s', frag) ∧
        s'.get h = none ∧ s'.check h = false) ∧
    (∀ (sz : Nat) (items : List (Nat × VData)),
      (items.map Prod.fst).Nodup → (∀ p ∈ items, p.2.valid) →
      ∃ s1, runPuts (Storage.new sz) items = .ok s1 ∧
        ∀ t ∈ (runDeletes s1 (items.map Prod.fst)).tables,
          t.inuse = 0 ∧ t.index = []) := by
  constructor
  · intro s h hwf hchk
    obtain ⟨s', heq, -, hget, hcheck, -⟩ := delete_spec s h hwf hchk
    exact ⟨s', true, heq, hget, hcheck⟩
  · intro sz items hnd hval
    obtain ⟨s1, hrun, hwf1, -, -, hlive1⟩ :=
      runPuts_spec items (Storage.new sz) (wf_new sz) hnd hval
    refine ⟨s1, hrun, ?_⟩
    obtain ⟨hwf2, hlive2⟩ := runDeletes_spec (items.map Prod.fst) s1 hwf1
    have hnl : ∀ k, k ∉ liveKeys (runDeletes s1 (items.map Prod.fst)) := by
      intro k hk
      rw [hlive2, List.mem_filter] at hk
      have hmem : k ∈ items.map Prod.fst := by
        have := (hlive1 k).mp hk.1
        rcases this with hc | hc
        · have : liveKeys (Storage.new sz) = [] := rfl
          rw [this] at hc
          simp at hc
        · exact hc
      rw [contains_true_of_mem hmem] at hk
      simp at hk
    have hemp := empty_of_no_live _ hnl
    intro t ht
    refine ⟨?_, hemp t ht⟩
    have := (hwf2.2.2 t ht).2.2.1
    rw [hemp t ht] at this
    simpa using this

theorem claim_delete_semantics_witness :
    (∃ s' frag, exStorage.delete 5 = .ok (s', frag) ∧
      s'.get 5 = none ∧ s'.check 5 = false) ∧
    (∃ s1, runPuts (Storage.new 0) exItems = .ok s1 ∧
      ∀ t ∈ (runDeletes s1 (exItems.map Prod.fst)).tables,
        t.inuse = 0 ∧ t.index = []) :=
  ⟨claim_delete_semantics.1 exStorage 5 exStorage_wf (by decide),
   claim_delete_semantics.2 0 exItems (by decide) (by decide)⟩

/-- C7: a full Range pass over a well-formed Storage visits each live
hkey exactly once (the visited hkeys are duplicate-free and coincide with
the hkeys Check reports), and for each visited pair, Get returns exactly
the record passed to the callback. -/
theorem claim_range_coverage (s : Storage) (hwf : s.wf) :
    ((s.range (fun _ _ => true)).map Prod.fst).Nodup ∧
      (∀ k, k ∈ (s.range (fun _ _ => true)).map Prod.fst ↔ s.check k = true) ∧
      (∀ p ∈ s.range (fun _ _ => true), s.get p.1 = some p.2) := by
  unfold Storage.range
  rw [visitWhile_true]
  refine ⟨?_, ?_, ?_⟩
  · rw [rangePairs_fst s hwf]
    exact hwf.2.1
  · intro k
    rw [rangePairs_fst s hwf]
    exact (check_iff_mem s k).symm
  · intro p hp
    exact rangePairs_get s hwf p hp

theorem claim_range_coverage_witness :
    ((exStorage.range (fun _ _ => true)).map Prod.fst).Nodup ∧
      (∀ k, k ∈ (exStorage.range (fun _ _ => true)).map Prod.fst ↔
        exStorage.check k = true) ∧
      (∀ p ∈ exStorage.range (fun _ _ => true), exStorage.get p.1 = some p.2) :=
  claim_range_coverage exStorage exStorage_wf

/-- C8: ParsePublishCommand errors exactly when the command carries fewer
than 3 arguments; on success, argument 1 is the channel and argument 2
the message; arguments beyond the third never change the result. -/
theorem claim_parse_publish (args : List (List Nat)) :
    ((∃ e, ParsePublishCommand args = .error e) ↔ args.length < 3) ∧
      (3 ≤ args.length →
        ParsePublishCommand args = .ok ⟨args.getD 1 [], args.getD 2 []⟩) ∧
      (∀ extra, 3 ≤ args.length →
        ParsePublishCommand (args ++ extra) = ParsePublishCommand args) := by
  refine ⟨?_, ?_, ?_⟩
  · constructor
    · intro ⟨e, he⟩
      by_contra hc
      unfold ParsePublishCommand at he
      rw [if_neg hc] at he
      exact absurd he (by simp)
    · intro h3
      unfold ParsePublishCommand
      rw [if_pos h3]
      exact ⟨.wrongNumber, rfl⟩
  · intro h3
    unfold ParsePublishCommand
    rw [if_neg (by omega)]
  · intro extra h3
    unfold ParsePublishCommand
    rw [if_neg (by rw [List.length_append]; omega), if_neg (by omega),
      List.getD_append args extra [] 1 (by omega),
      List.getD_append args extra [] 2 (by omega)]

theorem claim_parse_publish_witness :
    ((∃ e, ParsePublishCommand [[80], [81], [82]] = .error e) ↔
        ([[80], [81], [82]] : List (List Nat)).length < 3) ∧
      (3 ≤ ([[80], [81], [82]] : List (List Nat)).length →
        ParsePublishCommand [[80], [81], [82]] =
          .ok ⟨[[80], [81], [82]].getD 1 [], [[80], [81], [82]].getD 2 []⟩) ∧
      (∀ extra, 3 ≤ ([[80], [81], [82]] : List (List Nat)).length →
        ParsePublishCommand ([[80], [81], [82]] ++ extra) =
          ParsePublishCommand [[80], [81], [82]]) :=
  claim_parse_publish [[80], [81], [82]]

/-- C9: Client.Sanitize returns success whenever the Authentication
sub-configuration sanitizes, and maps every field as documented: -1
becomes 0 (disabled) for ReadTimeout, WriteTimeout, MaxRetries,
MinRetryBackoff, MaxRetryBackoff; 0 becomes the documented default
(ReadTimeout 3s, WriteTimeout = sanitized ReadTimeout, MaxRetries 3,
MinRetryBackoff 8ms, MaxRetryBackoff 512ms, DialTimeout 5s, IdleTimeout
5m, PoolTimeout = sanitized ReadTimeout + 1s, PoolSize 10 × GOMAXPROCS);
any other already-set value is left unchanged. -/
theorem claim_client_sanitize (c : Client) (n : Int) :
    ∃ c', Client.sanitize true n c = some c' ∧
      c'.readTimeout = (if c.readTimeout = -1 then 0
        else if c.readTimeout = 0 then DefaultReadTimeout else c.readTimeout) ∧
      c'.writeTimeout = (if c.writeTimeout = -1 then 0
        else if c.writeTimeout = 0 then c'.readTimeout else c.writeTimeout) ∧
      c'.maxRetries = (if c.maxRetries = -1 then 0
        else if c.maxRetries = 0 then DefaultMaxRetries else c.maxRetries) ∧
      c'.minRetryBackoff = (if c.minRetryBackoff = -1 then 0
        else if c.minRetryBackoff = 0 then DefaultMinRetryBackoff
        else c.minRetryBackoff) ∧
      c'.maxRetryBackoff = (if c.maxRetryBackoff = -1 then 0
        else if c.maxRetryBackoff = 0 then DefaultMaxRetryBackoff
        else c.maxRetryBackoff) ∧
      c'.dialTimeout = (if c.dialTimeout = 0 then DefaultDialTimeout
        else c.dialTimeout) ∧
      c'.idleTimeout = (if c.idleTimeout = 0 then DefaultIdleTimeout
        else c.idleTimeout) ∧
      c'.poolTimeout = (if c.poolTimeout = 0 then c'.readTimeout + second
        else c.poolTimeout) ∧
      c'.poolSize = (if c.poolSize = 0 then 10 * n else c.poolSize) ∧
      c'.minIdleConns = c.minIdleConns ∧
      c'.maxConnAge = c.maxConnAge ∧
      c'.poolFIFO = c.poolFIFO :=
  ⟨_, sanitize_spec c n, rfl, rfl, rfl, rfl, rfl, rfl, rfl, rfl, rfl, rfl, rfl, rfl⟩

/-- C10: ParseSubscribeCommand and ParsePSubscribeCommand succeed on any
command with at least 2 arguments and return exactly the arguments after
the command name, all of them, in order; with fewer than 2 arguments both
return the wrong-number error. -/
theorem claim_parse_subscribe (args : List (List Nat)) :
    (2 ≤ args.length →
      ParseSubscribeCommand args = .ok ⟨args.drop 1⟩ ∧
      ParsePSubscribeCommand args = .ok ⟨args.drop 1⟩) ∧
    (args.length < 2 →
      ParseSubscribeCommand args = .error .wrongNumber ∧
      ParsePSubscribeCommand args = .error .wrongNumber) := by
  constructor
  · intro h2
    unfold ParseSubscribeCommand ParsePSubscribeCommand
    rw [if_neg (by omega), if_neg (by omega), collectArgs_eq]
    exact ⟨rfl, rfl⟩
  · intro h2
    unfold ParseSubscribeCommand ParsePSubscribeCommand
    rw [if_pos h2, if_pos h2]
    exact ⟨rfl, rfl⟩

theorem claim_parse_subscribe_witness :
    (2 ≤ ([[83], [84], [85]] : List (List Nat)).length →
      ParseSubscribeCommand [[83], [84], [85]] = .ok ⟨[[83], [84], [85]].drop 1⟩ ∧
      ParsePSubscribeCommand [[83], [84], [85]] = .ok ⟨[[83], [84], [85]].drop 1⟩) ∧
    (([[83], [84], [85]] : List (List Nat)).length < 2 →
      ParseSubscribeCommand [[83], [84], [85]] = .error .wrongNumber ∧
      ParsePSubscribeCommand [[83], [84], [85]] = .error .wrongNumber) :=
  claim_parse_subscribe [[83], [84], [85]]
